import Mathlib

/-!
Verification of the envize profile-resolution and session-state engine.

The definitions below are a shallow embedding of the TypeScript sources:
JavaScript `Record<string, T>` objects and `Map` values are modelled as
association lists in insertion order (`jsInsert` reproduces the JS
semantics: overwriting an existing key keeps its position, a new key is
appended), strings are modelled as `String` where their contents are
opaque and as `List Char` where character-level behaviour matters, and
file-system / process-environment access is passed in as explicit
function arguments.
-/

namespace Envize

/-- A resolved environment variable: its value and the profile it came from
(`EnvVariable` in `types.ts`). -/
structure EnvVariable where
  value : String
  source : String
deriving DecidableEq, Repr

/-- A merge conflict report (`Conflict` in `types.ts`): the variable name, the
profiles that set it in merge order, and the winner. -/
structure Conflict where
  varName : String
  profiles : List String
  winner : String
deriving DecidableEq, Repr

/-- A loaded profile, reduced to the fields the resolver reads: its `name` and
its `variables` record (modelled as an association list in insertion order).
The source field name `variables` collides with a reserved Lean token, so the
field is called `vars` here. -/
structure Profile where
  name : String
  vars : List (String × String)
deriving DecidableEq, Repr

/-- Result of `ProfileResolver.resolve` / `resolveProfiles`; the source field
`variables` is called `vars` here. -/
structure ResolvedEnv where
  vars : List (String × EnvVariable)
  conflicts : List Conflict
deriving DecidableEq, Repr

/-- First-match lookup in an association list (JS property read `m[k]`). -/
def lookupKey {κ α : Type} [DecidableEq κ] (k : κ) : List (κ × α) → Option α
  | [] => none
  | (k', v) :: rest => if k' = k then some v else lookupKey k rest

/-- JS object/Map assignment `m[k] = v`: an existing key keeps its position and
gets the new value, a fresh key is appended at the end. -/
def jsInsert {κ α : Type} [DecidableEq κ] (m : List (κ × α)) (k : κ) (v : α) :
    List (κ × α) :=
  if (lookupKey k m).isSome then
    m.map (fun p => if p.1 = k then (k, v) else p)
  else
    m ++ [(k, v)]

@[simp] theorem lookupKey_nil {κ α : Type} [DecidableEq κ] (k : κ) :
    lookupKey (α := α) k [] = none := rfl

@[simp] theorem lookupKey_cons {κ α : Type} [DecidableEq κ] (k k' : κ) (v : α) (rest) :
    lookupKey k ((k', v) :: rest) = if k' = k then some v else lookupKey k rest := rfl

theorem lookupKey_append {κ α : Type} [DecidableEq κ] (k : κ) (a b : List (κ × α)) :
    lookupKey k (a ++ b) =
      if (lookupKey k a).isSome then lookupKey k a else lookupKey k b := by
  induction a with
  | nil => simp
  | cons p rest ih =>
    obtain ⟨k', v⟩ := p
    by_cases h : k' = k <;> simp [h, ih]

theorem jsInsert_of_none {κ α : Type} [DecidableEq κ] (k : κ) (v : α) (m : List (κ × α))
    (hm : lookupKey k m = none) : jsInsert m k v = m ++ [(k, v)] := by
  simp [jsInsert, hm]

theorem jsInsert_of_isSome {κ α : Type} [DecidableEq κ] (k : κ) (v : α) (m : List (κ × α))
    (hm : (lookupKey k m).isSome) :
    jsInsert m k v = m.map (fun p => if p.1 = k then (k, v) else p) := by
  simp [jsInsert, hm]

theorem lookupKey_map_update_of_isSome {κ α : Type} [DecidableEq κ] (k : κ) (v : α)
    (m : List (κ × α)) (h : (lookupKey k m).isSome) :
    lookupKey k (m.map (fun p => if p.1 = k then (k, v) else p)) = some v := by
  induction m with
  | nil => simp at h
  | cons p rest ih =>
    obtain ⟨k', w⟩ := p
    by_cases hk : k' = k
    · simp [hk]
    · simp only [lookupKey_cons, hk, if_false] at h
      simpa [hk] using ih h

theorem lookupKey_jsInsert_self {κ α : Type} [DecidableEq κ] (k : κ) (v : α)
    (m : List (κ × α)) : lookupKey k (jsInsert m k v) = some v := by
  rcases hm : lookupKey k m with _ | w
  · rw [jsInsert_of_none k v m hm, lookupKey_append, hm]
    simp
  · have hs : (lookupKey k m).isSome := by simp [hm]
    rw [jsInsert_of_isSome k v m hs]
    exact lookupKey_map_update_of_isSome k v m hs

theorem lookupKey_map_update_ne {κ α : Type} [DecidableEq κ] (k k' : κ) (v : α)
    (m : List (κ × α)) (h : k' ≠ k) :
    lookupKey k' (m.map (fun p => if p.1 = k then (k, v) else p)) =
      lookupKey k' m := by
  induction m with
  | nil => simp
  | cons p rest ih =>
    obtain ⟨k'', w⟩ := p
    by_cases hk : k'' = k
    · subst hk
      have h1 : ¬ (k'' = k') := fun hc => h hc.symm
      simp [h1, ih]
    · by_cases hk' : k'' = k'
      · simp [hk, hk', fun hc : k' = k => h hc]
      · simp [hk, hk', ih]

theorem lookupKey_jsInsert_ne {κ α : Type} [DecidableEq κ] (k k' : κ) (v : α)
    (m : List (κ × α)) (h : k' ≠ k) :
    lookupKey k' (jsInsert m k v) = lookupKey k' m := by
  by_cases hs : (lookupKey k m).isSome
  · rw [jsInsert_of_isSome k v m hs]
    exact lookupKey_map_update_ne k k' v m h
  · rw [jsInsert_of_none k v m (by simpa using hs), lookupKey_append]
    rcases hm : lookupKey k' m with _ | w
    · simp [hm]
      exact fun hc => h hc.symm
    · simp [hm]

/-- The keys of an association list, in order. -/
def keysOf {κ α : Type} (m : List (κ × α)) : List κ := m.map Prod.fst

theorem lookupKey_eq_none_iff {κ α : Type} [DecidableEq κ] (k : κ) (m : List (κ × α)) :
    lookupKey k m = none ↔ k ∉ keysOf m := by
  induction m with
  | nil => simp [keysOf]
  | cons p rest ih =>
    obtain ⟨k', v⟩ := p
    by_cases h : k' = k
    · subst h; simp [keysOf]
    · have h2 : ¬ (k = k') := fun hc => h hc.symm
      simp [keysOf, h, h2, ih]

theorem lookupKey_isSome_iff {κ α : Type} [DecidableEq κ] (k : κ) (m : List (κ × α)) :
    (lookupKey k m).isSome ↔ k ∈ keysOf m := by
  rw [Option.isSome_iff_ne_none]
  constructor
  · intro h
    by_contra hk
    exact h ((lookupKey_eq_none_iff k m).mpr hk)
  · intro h hn
    exact ((lookupKey_eq_none_iff k m).mp hn) h

theorem keysOf_jsInsert_of_isSome {κ α : Type} [DecidableEq κ] (k : κ) (v : α)
    (m : List (κ × α)) (h : (lookupKey k m).isSome) :
    keysOf (jsInsert m k v) = keysOf m := by
  rw [jsInsert_of_isSome k v m h]
  simp only [keysOf, List.map_map]
  apply List.map_congr_left
  intro p _
  by_cases hp : p.1 = k <;> simp [hp]

theorem keysOf_jsInsert_nodup {κ α : Type} [DecidableEq κ] (k : κ) (v : α)
    (m : List (κ × α)) (h : (keysOf m).Nodup) :
    (keysOf (jsInsert m k v)).Nodup := by
  by_cases hs : (lookupKey k m).isSome
  · rw [keysOf_jsInsert_of_isSome k v m hs]; exact h
  · rw [jsInsert_of_none k v m (by simpa using hs)]
    have hk : k ∉ keysOf m := by
      rw [← lookupKey_eq_none_iff]; simpa using hs
    simp only [keysOf, List.map_append, List.map_cons, List.map_nil]
    rw [List.nodup_append]
    refine ⟨h, List.nodup_singleton k, ?_⟩
    intro a ha hb
    simp only [List.mem_singleton] at hb
    subst hb
    exact hk ha

theorem lookupKey_of_mem_nodup {κ α : Type} [DecidableEq κ] (k : κ) (v : α)
    (m : List (κ × α)) (hnd : (keysOf m).Nodup) (hm : (k, v) ∈ m) :
    lookupKey k m = some v := by
  induction m with
  | nil => simp at hm
  | cons p rest ih =>
    obtain ⟨k', w⟩ := p
    simp only [keysOf, List.map_cons, List.nodup_cons] at hnd
    rcases List.mem_cons.mp hm with heq | hrest
    · rw [← heq]; simp
    · have hk : k' ≠ k := by
        intro h
        subst h
        exact hnd.1 (List.mem_map.mpr ⟨(k', v), hrest, rfl⟩)
      simpa [hk] using ih hnd.2 hrest

/-! ## ProfileResolver (src/core/ProfileResolver.ts)

The merge state is the pair of the `variables` record and the
`variableSources` map from the source; both are built with JS insertion
semantics. -/

/-- The running merge state: `variables` and `variableSources`. -/
abbrev VarMap := List (String × EnvVariable)

/-- The `variableSources : Map<string, string[]>` side table. -/
abbrev SrcMap := List (String × List String)

/-- One iteration of the loop body of `ProfileResolver.mergeProfile`: record
the profile as a setter of the key and overwrite the variable (last wins). -/
def mergeEntry (pname : String) (st : VarMap × SrcMap) (kv : String × String) :
    VarMap × SrcMap :=
  (jsInsert st.1 kv.1 ⟨kv.2, pname⟩,
   jsInsert st.2 kv.1 ((lookupKey kv.1 st.2).getD [] ++ [pname]))

/-- `ProfileResolver.mergeProfile`: fold the profile's variables into the
running state in insertion order. -/
def mergeProfile (p : Profile) (st : VarMap × SrcMap) : VarMap × SrcMap :=
  p.vars.foldl (mergeEntry p.name) st

/-- The merge loop of `resolveProfiles` over already-loaded profiles. -/
def mergeAll (ps : List Profile) (st : VarMap × SrcMap) : VarMap × SrcMap :=
  ps.foldl (fun acc p => mergeProfile p acc) st

/-- Conflict detection: every entry of `variableSources` with more than one
setter yields a `Conflict` whose winner is the last setter. -/
def mkConflicts (ss : SrcMap) : List Conflict :=
  ss.filterMap (fun e =>
    if 2 ≤ e.2.length then some ⟨e.1, e.2, e.2.getLastD ""⟩ else none)

/-- `ProfileResolver.resolveProfiles`. -/
def resolveProfiles (ps : List Profile) : ResolvedEnv :=
  let st := mergeAll ps ([], [])
  ⟨st.1, mkConflicts st.2⟩

/-- The load-and-merge loop of `ProfileResolver.resolve`; throwing
`Profile not found` is modelled as `Except.error`. -/
def resolveFrom (store : String → Option Profile) :
    List String → VarMap × SrcMap → Except String (VarMap × SrcMap)
  | [], st => .ok st
  | n :: rest, st =>
    match store n with
    | none => .error ("Profile not found: " ++ n)
    | some p => resolveFrom store rest (mergeProfile p st)

/-- `ProfileResolver.resolve`: load each named profile in order (the
`ProfileStore` is abstracted as a lookup function), merge, then report
conflicts. -/
def resolve (store : String → Option Profile) (names : List String) :
    Except String ResolvedEnv :=
  match resolveFrom store names ([], []) with
  | .error e => .error e
  | .ok st => .ok ⟨st.1, mkConflicts st.2⟩

/-- `ProfileResolver.diff`. -/
def diff (current next : VarMap) : List (String × String) × List String :=
  let toSet := next.foldl (fun acc kv =>
    match lookupKey kv.1 current with
    | none => jsInsert acc kv.1 kv.2.value
    | some cv => if cv.value ≠ kv.2.value then jsInsert acc kv.1 kv.2.value
                 else acc) []
  let toUnset := current.foldl (fun acc kv =>
    if (lookupKey kv.1 next).isNone then acc ++ [kv.1] else acc) []
  (toSet, toUnset)

/-- The fresh resolution `computeRemoval` partitions against: the
`remainingProfileNames.length > 0 ? this.resolve(...) : { variables: {} }`
conditional of the source (an empty name list never calls `resolve`). -/
def freshResolution (store : String → Option Profile)
    (remainingProfileNames : List String) : Except String VarMap :=
  if 0 < remainingProfileNames.length then
    (resolve store remainingProfileNames).map (fun r => r.vars)
  else
    .ok []

/-- The partition loop of `computeRemoval`: each current variable still
present in the fresh resolution goes to `toKeep` with its freshly resolved
entry, every other one is queued in `toUnset`. -/
def removalFold (remaining currentVariables : VarMap) :
    List String × VarMap :=
  currentVariables.foldl (fun acc kv =>
    match lookupKey kv.1 remaining with
    | some v => (acc.1, jsInsert acc.2 kv.1 v)
    | none => (acc.1 ++ [kv.1], acc.2)) ([], [])

/-- `ProfileResolver.computeRemoval`: re-resolve the remaining names (an empty
list yields an empty map without calling `resolve`) and partition the current
variables. -/
def computeRemoval (store : String → Option Profile) (currentVariables : VarMap)
    (remainingProfileNames : List String) :
    Except String (List String × VarMap) := do
  let remaining ← freshResolution store remainingProfileNames
  pure (removalFold remaining currentVariables)

/-- Does profile `p` set variable `k`? -/
def setsKey (p : Profile) (k : String) : Bool := (lookupKey k p.vars).isSome

/-- The names of the profiles in `ps` that set `k`, in input order: the
provenance list the spec talks about. -/
def settersOf (ps : List Profile) (k : String) : List String :=
  (ps.filter (fun p => setsKey p k)).map Profile.name

/-- The last profile in `ps` (in input order) that sets `k`. -/
def lastSetter (ps : List Profile) (k : String) : Option Profile :=
  (ps.filter (fun p => setsKey p k)).getLast?

theorem entryFold_lookup (pname : String) (es : List (String × String)) :
    ∀ (st : VarMap × SrcMap) (k : String), (es.map Prod.fst).Nodup →
    lookupKey k (es.foldl (mergeEntry pname) st).1 =
      (match lookupKey k es with
       | some v => some ⟨v, pname⟩
       | none => lookupKey k st.1) ∧
    lookupKey k (es.foldl (mergeEntry pname) st).2 =
      (match lookupKey k es with
       | some _ => some ((lookupKey k st.2).getD [] ++ [pname])
       | none => lookupKey k st.2) := by
  induction es with
  | nil =>
    intro st k _
    simp
  | cons e rest ih =>
    intro st k hnd
    obtain ⟨k0, v0⟩ := e
    simp only [List.map_cons, List.nodup_cons] at hnd
    simp only [List.foldl_cons]
    by_cases hk : k0 = k
    · subst hk
      have hrest : lookupKey k0 rest = none :=
        (lookupKey_eq_none_iff k0 rest).mpr hnd.1
      have h := ih (mergeEntry pname st (k0, v0)) k0 hnd.2
      rw [hrest] at h
      have hsc : lookupKey k0 ((k0, v0) :: rest) = some v0 := by simp
      rw [hsc]
      refine ⟨?_, ?_⟩
      · rw [h.1]
        simp [mergeEntry, lookupKey_jsInsert_self]
      · rw [h.2]
        simp [mergeEntry, lookupKey_jsInsert_self]
    · have hk' : k ≠ k0 := fun hc => hk hc.symm
      have h := ih (mergeEntry pname st (k0, v0)) k hnd.2
      have e1 : lookupKey k (mergeEntry pname st (k0, v0)).1 = lookupKey k st.1 :=
        lookupKey_jsInsert_ne k0 k _ st.1 hk'
      have e2 : lookupKey k (mergeEntry pname st (k0, v0)).2 = lookupKey k st.2 :=
        lookupKey_jsInsert_ne k0 k _ st.2 hk'
      rw [e1, e2] at h
      simpa [hk] using h

theorem mergeProfile_lookup (p : Profile) (st : VarMap × SrcMap) (k : String)
    (hnd : (keysOf p.vars).Nodup) :
    lookupKey k (mergeProfile p st).1 =
      (match lookupKey k p.vars with
       | some v => some ⟨v, p.name⟩
       | none => lookupKey k st.1) ∧
    lookupKey k (mergeProfile p st).2 =
      (match lookupKey k p.vars with
       | some _ => some ((lookupKey k st.2).getD [] ++ [p.name])
       | none => lookupKey k st.2) :=
  entryFold_lookup p.name p.vars st k hnd

theorem getLast?_cons_of_ne_nil {α : Type} (a : α) (l : List α) (h : l ≠ []) :
    (a :: l).getLast? = l.getLast? := by
  cases l with
  | nil => exact absurd rfl h
  | cons b t => rw [List.getLast?_cons_cons]

theorem mergeAll_lookup (ps : List Profile) :
    ∀ (st : VarMap × SrcMap) (k : String), (∀ p ∈ ps, (keysOf p.vars).Nodup) →
    lookupKey k (mergeAll ps st).1 =
      (match lastSetter ps k with
       | some q => (lookupKey k q.vars).map (fun v => ⟨v, q.name⟩)
       | none => lookupKey k st.1) ∧
    lookupKey k (mergeAll ps st).2 =
      (if settersOf ps k = [] then lookupKey k st.2
       else some ((lookupKey k st.2).getD [] ++ settersOf ps k)) := by
  induction ps with
  | nil =>
    intro st k _
    simp [mergeAll, lastSetter, settersOf]
  | cons p rest ih =>
    intro st k hnd
    have hmerge := mergeProfile_lookup p st k (hnd p (List.mem_cons_self p rest))
    have hrest : ∀ q ∈ rest, (keysOf q.vars).Nodup :=
      fun q hq => hnd q (List.mem_cons_of_mem p hq)
    have hfold : mergeAll (p :: rest) st = mergeAll rest (mergeProfile p st) := by
      simp [mergeAll]
    have ihr := ih (mergeProfile p st) k hrest
    rw [hfold]
    by_cases hp : setsKey p k
    · -- p sets k
      rcases hv : lookupKey k p.vars with _ | v
      · rw [setsKey, hv] at hp; simp at hp
      have h1 : lookupKey k (mergeProfile p st).1 = some ⟨v, p.name⟩ := by
        rw [hmerge.1, hv]
      have h2 : lookupKey k (mergeProfile p st).2 =
          some ((lookupKey k st.2).getD [] ++ [p.name]) := by
        rw [hmerge.2, hv]
      have hfilter : (p :: rest).filter (fun q => setsKey q k) =
          p :: rest.filter (fun q => setsKey q k) := by
        simp [List.filter_cons, hp]
      have hsetters : settersOf (p :: rest) k =
          p.name :: settersOf rest k := by
        simp [settersOf, hfilter]
      constructor
      · rcases hls : lastSetter rest k with _ | q
        · have hemp : rest.filter (fun q => setsKey q k) = [] :=
            List.getLast?_eq_none_iff.mp hls
          have hLS : lastSetter (p :: rest) k = some p := by
            rw [lastSetter, hfilter, hemp]
            rfl
          rw [ihr.1, hls, h1, hLS]
          simp [hv]
        · have hne : rest.filter (fun q => setsKey q k) ≠ [] := by
            intro hc
            rw [lastSetter, hc] at hls
            simp at hls
          have hLS : lastSetter (p :: rest) k = some q := by
            rw [lastSetter, hfilter, getLast?_cons_of_ne_nil p _ hne]
            exact hls
          rw [ihr.1, hls, hLS]
      · rw [ihr.2, h2, hsetters]
        by_cases hre : settersOf rest k = []
        · simp [hre]
        · simp [hre]
    · -- p does not set k
      rcases hv : lookupKey k p.vars with _ | v
      swap
      · rw [setsKey, hv] at hp; simp at hp
      have h1 : lookupKey k (mergeProfile p st).1 = lookupKey k st.1 := by
        rw [hmerge.1, hv]
      have h2 : lookupKey k (mergeProfile p st).2 = lookupKey k st.2 := by
        rw [hmerge.2, hv]
      have hfilter : (p :: rest).filter (fun q => setsKey q k) =
          rest.filter (fun q => setsKey q k) := by
        simp [List.filter_cons, hp]
      have hLS : lastSetter (p :: rest) k = lastSetter rest k := by
        rw [lastSetter, lastSetter, hfilter]
      have hSet : settersOf (p :: rest) k = settersOf rest k := by
        rw [settersOf, settersOf, hfilter]
      constructor
      · rw [ihr.1, h1, hLS]
      · rw [ihr.2, h2, hSet]

theorem entryFold_srcNodup (pname : String) (es : List (String × String)) :
    ∀ st : VarMap × SrcMap, (keysOf st.2).Nodup →
      (keysOf ((es.foldl (mergeEntry pname) st)).2).Nodup := by
  induction es with
  | nil => intro st h; exact h
  | cons e rest ih =>
    intro st h
    simp only [List.foldl_cons]
    exact ih _ (keysOf_jsInsert_nodup _ _ _ h)

theorem mergeAll_srcNodup (ps : List Profile) :
    ∀ st : VarMap × SrcMap, (keysOf st.2).Nodup →
      (keysOf (mergeAll ps st).2).Nodup := by
  induction ps with
  | nil => intro st h; exact h
  | cons p rest ih =>
    intro st h
    have hstep : mergeAll (p :: rest) st = mergeAll rest (mergeProfile p st) := by
      simp [mergeAll]
    rw [hstep]
    exact ih _ (entryFold_srcNodup p.name p.vars st h)

theorem mkConflicts_cons (k0 : String) (srcs : List String) (rest : SrcMap) :
    mkConflicts ((k0, srcs) :: rest) =
      (if 2 ≤ srcs.length then [Conflict.mk k0 srcs (srcs.getLastD "")]
       else []) ++ mkConflicts rest := by
  rw [mkConflicts, List.filterMap_cons]
  by_cases h2 : 2 ≤ srcs.length <;> simp [h2, mkConflicts]

theorem mkConflicts_filter_not_mem (ss : SrcMap) (k : String) :
    k ∉ keysOf ss → (mkConflicts ss).filter (fun c => c.varName == k) = [] := by
  induction ss with
  | nil => intro _; rfl
  | cons e rest ih =>
    intro h
    obtain ⟨k0, srcs⟩ := e
    have hk : ¬ (k0 = k) := by
      intro hc; subst hc; exact h (by simp [keysOf])
    have hm : k ∉ keysOf rest := by
      intro hc
      apply h
      simp only [keysOf, List.map_cons]
      exact List.mem_cons_of_mem _ hc
    rw [mkConflicts_cons, List.filter_append]
    rw [ih hm, List.append_nil]
    by_cases h2 : 2 ≤ srcs.length <;> simp [h2, hk]

theorem mkConflicts_filter_lookup (ss : SrcMap) (k : String) :
    (keysOf ss).Nodup →
    (mkConflicts ss).filter (fun c => c.varName == k) =
      (match lookupKey k ss with
       | some srcs =>
         if 2 ≤ srcs.length then [Conflict.mk k srcs (srcs.getLastD "")] else []
       | none => []) := by
  induction ss with
  | nil => intro _; rfl
  | cons e rest ih =>
    intro hnd
    obtain ⟨k0, srcs⟩ := e
    simp only [keysOf, List.map_cons, List.nodup_cons] at hnd
    rw [mkConflicts_cons, List.filter_append]
    by_cases hk : k0 = k
    · subst hk
      have hone : lookupKey k0 ((k0, srcs) :: rest) = some srcs := by simp
      rw [hone, mkConflicts_filter_not_mem rest k0 hnd.1, List.append_nil]
      by_cases h2 : 2 ≤ srcs.length <;> simp [h2]
    · have hcons : lookupKey k ((k0, srcs) :: rest) = lookupKey k rest := by
        simp [hk]
      rw [hcons]
      have htail := ih hnd.2
      by_cases h2 : 2 ≤ srcs.length <;> simp [h2, hk, htail]

/-! ## Characterization of `resolve` -/

/-- The first requested name that loads in neither location. -/
def firstMissing (store : String → Option Profile) (names : List String) :
    Option String :=
  names.find? (fun n => (store n).isNone)

theorem resolveFrom_of_all_some (store : String → Option Profile)
    (names : List String) (h : ∀ n ∈ names, (store n).isSome) :
    ∀ st, resolveFrom store names st =
      .ok (mergeAll (names.filterMap store) st) := by
  induction names with
  | nil => intro st; rfl
  | cons n rest ih =>
    intro st
    rcases hs : store n with _ | p
    · have hmem := h n (List.mem_cons_self n rest)
      rw [hs] at hmem
      simp at hmem
    · simp only [resolveFrom, hs]
      rw [ih (fun m hm => h m (List.mem_cons_of_mem n hm)) (mergeProfile p st)]
      have hfm : (n :: rest).filterMap store = p :: rest.filterMap store := by
        rw [List.filterMap_cons, hs]
      rw [hfm]
      have hma : mergeAll (p :: rest.filterMap store) st =
          mergeAll (rest.filterMap store) (mergeProfile p st) := by
        simp [mergeAll]
      rw [hma]

theorem resolveFrom_of_missing (store : String → Option Profile)
    (names : List String) (m : String) (h : firstMissing store names = some m) :
    ∀ st, resolveFrom store names st =
      .error ("Profile not found: " ++ m) := by
  induction names with
  | nil => simp [firstMissing] at h
  | cons n rest ih =>
    intro st
    rcases hs : store n with _ | p
    · have hm : m = n := by
        rw [firstMissing, List.find?_cons_of_pos _ (by simp [hs])] at h
        exact (Option.some_inj.mp h).symm
      subst hm
      simp only [resolveFrom, hs]
    · have htail : firstMissing store rest = some m := by
        rw [firstMissing, List.find?_cons_of_neg _ (by simp [hs])] at h
        exact h
      simp only [resolveFrom, hs]
      exact ih htail (mergeProfile p st)

theorem resolve_of_all_some (store : String → Option Profile)
    (names : List String) (h : ∀ n ∈ names, (store n).isSome) :
    resolve store names = .ok (resolveProfiles (names.filterMap store)) := by
  rw [resolve, resolveFrom_of_all_some store names h ([], [])]
  rfl

theorem resolve_of_missing (store : String → Option Profile)
    (names : List String) (m : String) (h : firstMissing store names = some m) :
    resolve store names = .error ("Profile not found: " ++ m) := by
  rw [resolve, resolveFrom_of_missing store names m h ([], [])]

theorem resolveProfiles_vars_eq (ps : List Profile) :
    (resolveProfiles ps).vars = (mergeAll ps ([], [])).1 := rfl

theorem resolveProfiles_conflicts_eq (ps : List Profile) :
    (resolveProfiles ps).conflicts = mkConflicts (mergeAll ps ([], [])).2 := rfl

theorem resolveProfiles_vars_lookup (ps : List Profile)
    (hnd : ∀ p ∈ ps, (keysOf p.vars).Nodup) (k : String) :
    lookupKey k (resolveProfiles ps).vars =
      (match lastSetter ps k with
       | some q => (lookupKey k q.vars).map (fun v => ⟨v, q.name⟩)
       | none => none) :=
  (mergeAll_lookup ps ([], []) k hnd).1

theorem resolveProfiles_conflicts_filter (ps : List Profile)
    (hnd : ∀ p ∈ ps, (keysOf p.vars).Nodup) (k : String) :
    (resolveProfiles ps).conflicts.filter (fun c => c.varName == k) =
      (if 2 ≤ (settersOf ps k).length then
        [Conflict.mk k (settersOf ps k) ((settersOf ps k).getLastD "")]
       else []) := by
  have hsrc := (mergeAll_lookup ps ([], []) k hnd).2
  have hnodup := mergeAll_srcNodup ps ([], []) (by simp [keysOf])
  have hfilter := mkConflicts_filter_lookup (mergeAll ps ([], [])).2 k hnodup
  rw [hsrc] at hfilter
  simp only [lookupKey_nil, Option.getD_none, List.nil_append] at hfilter
  rw [resolveProfiles_conflicts_eq]
  by_cases hemp : settersOf ps k = []
  · rw [if_pos hemp] at hfilter
    rw [hfilter, hemp]
    simp
  · rw [if_neg hemp] at hfilter
    rw [hfilter]

/-! ## Claim theorems for the resolver -/

/-- C1: Last-wins ordered merge with conflict reporting: for every ordered
list of profiles (with the record-keys-unique property JS objects guarantee),
each resolved key's value and source come from the last profile in input order
that sets it; each key set by more than one entry yields exactly one
`Conflict` listing the setters in merge order with the last one as winner;
`resolve` agrees with `resolveProfiles` on loaded profiles; and reversing the
order of two profiles sharing a key reverses the winner. Keys set by exactly
one entry produce no `Conflict` (the filtered conflict list is empty when the
setter list is shorter than 2). -/
theorem claim_C1_last_wins_merge :
    (∀ (ps : List Profile), (∀ p ∈ ps, (keysOf p.vars).Nodup) → ∀ k : String,
      lookupKey k (resolveProfiles ps).vars =
        (match lastSetter ps k with
         | some q => (lookupKey k q.vars).map (fun v => ⟨v, q.name⟩)
         | none => none)) ∧
    (∀ (ps : List Profile), (∀ p ∈ ps, (keysOf p.vars).Nodup) → ∀ k : String,
      (resolveProfiles ps).conflicts.filter (fun c => c.varName == k) =
        (if 2 ≤ (settersOf ps k).length then
          [Conflict.mk k (settersOf ps k) ((settersOf ps k).getLastD "")]
         else [])) ∧
    (∀ (store : String → Option Profile) (names : List String),
      (∀ n ∈ names, (store n).isSome) →
      resolve store names = .ok (resolveProfiles (names.filterMap store))) ∧
    (∀ (p q : Profile) (k : String),
      (keysOf p.vars).Nodup → (keysOf q.vars).Nodup →
      setsKey p k → setsKey q k →
      ((resolveProfiles [p, q]).conflicts.filter
          (fun c => c.varName == k)).map Conflict.winner = [q.name] ∧
      ((resolveProfiles [q, p]).conflicts.filter
          (fun c => c.varName == k)).map Conflict.winner = [p.name]) := by
  refine ⟨resolveProfiles_vars_lookup, resolveProfiles_conflicts_filter,
    resolve_of_all_some, ?_⟩
  intro p q k hp hq hsp hsq
  have hnd2 : ∀ r ∈ [p, q], (keysOf r.vars).Nodup := by
    intro r hr
    rcases List.mem_cons.mp hr with rfl | hr2
    · exact hp
    · rcases List.mem_cons.mp hr2 with rfl | hr3
      · exact hq
      · simp at hr3
  have hnd2' : ∀ r ∈ [q, p], (keysOf r.vars).Nodup := by
    intro r hr
    rcases List.mem_cons.mp hr with rfl | hr2
    · exact hq
    · rcases List.mem_cons.mp hr2 with rfl | hr3
      · exact hp
      · simp at hr3
  have hset : settersOf [p, q] k = [p.name, q.name] := by
    simp [settersOf, List.filter_cons, hsp, hsq]
  have hset' : settersOf [q, p] k = [q.name, p.name] := by
    simp [settersOf, List.filter_cons, hsp, hsq]
  constructor
  · rw [resolveProfiles_conflicts_filter [p, q] hnd2 k, hset]
    simp
  · rw [resolveProfiles_conflicts_filter [q, p] hnd2' k, hset']
    simp

/-- C5: Fail-fast on missing profile: when some requested name loads in
neither location, `resolve` fails with the `Profile not found` error naming
the first missing name in list order (and, being an `Except.error`, carries
no partial resolution); when every name loads, `resolve` succeeds. -/
theorem claim_C5_fail_fast :
    (∀ (store : String → Option Profile) (names : List String) (m : String),
      firstMissing store names = some m →
      resolve store names = .error ("Profile not found: " ++ m)) ∧
    (∀ (store : String → Option Profile) (names : List String),
      (∀ n ∈ names, (store n).isSome) →
      ∃ r, resolve store names = .ok r) :=
  ⟨resolve_of_missing,
   fun store names h => ⟨resolveProfiles (names.filterMap store),
     resolve_of_all_some store names h⟩⟩

/-- C10: Duplicate names in the `resolve` input are neither deduplicated nor
rejected: `resolve [p.name, p.name]` succeeds (merging the profile with
itself), and every variable the profile sets is reported as a `Conflict`
whose setter list is `[p.name, p.name]` and whose winner is `p.name`. -/
theorem claim_C10_duplicate_self_conflict (store : String → Option Profile)
    (p : Profile) (hs : store p.name = some p)
    (hnd : (keysOf p.vars).Nodup) :
    resolve store [p.name, p.name] = .ok (resolveProfiles [p, p]) ∧
    ∀ k : String, setsKey p k →
      (resolveProfiles [p, p]).conflicts.filter (fun c => c.varName == k) =
        [Conflict.mk k [p.name, p.name] p.name] := by
  constructor
  · have hall : ∀ n ∈ [p.name, p.name], (store n).isSome := by
      intro n hn
      rcases List.mem_cons.mp hn with rfl | hn2
      · simp [hs]
      · rcases List.mem_cons.mp hn2 with rfl | hn3
        · simp [hs]
        · simp at hn3
    have := resolve_of_all_some store [p.name, p.name] hall
    rw [this]
    have hfm : [p.name, p.name].filterMap store = [p, p] := by
      simp [List.filterMap_cons, hs]
    rw [hfm]
  · intro k hk
    have hnd2 : ∀ r ∈ [p, p], (keysOf r.vars).Nodup := by
      intro r hr
      rcases List.mem_cons.mp hr with rfl | hr2
      · exact hnd
      · rcases List.mem_cons.mp hr2 with rfl | hr3
        · exact hnd
        · simp at hr3
    have hset : settersOf [p, p] k = [p.name, p.name] := by
      simp [settersOf, List.filter_cons, hk]
    rw [resolveProfiles_conflicts_filter [p, p] hnd2 k, hset]
    simp

/-! Concrete profiles for the witnesses (scenario 1 of the spec). -/

def profP1 : Profile := ⟨"p1", [("KEY1", "a")]⟩

def profP2 : Profile := ⟨"p2", [("KEY1", "b"), ("KEY2", "c")]⟩

/-- A two-profile store used by the witnesses. -/
def storeW : String → Option Profile := fun n =>
  if n = "p1" then some profP1 else if n = "p2" then some profP2 else none

theorem claim_C1_witness :
    (lookupKey "KEY1" (resolveProfiles [profP1, profP2]).vars =
      (match lastSetter [profP1, profP2] "KEY1" with
       | some q => (lookupKey "KEY1" q.vars).map (fun v => ⟨v, q.name⟩)
       | none => none)) ∧
    ((resolveProfiles [profP1, profP2]).conflicts.filter
        (fun c => c.varName == "KEY1") =
      (if 2 ≤ (settersOf [profP1, profP2] "KEY1").length then
        [Conflict.mk "KEY1" (settersOf [profP1, profP2] "KEY1")
          ((settersOf [profP1, profP2] "KEY1").getLastD "")]
       else [])) ∧
    resolve storeW ["p1", "p2"] =
      .ok (resolveProfiles (["p1", "p2"].filterMap storeW)) ∧
    ((resolveProfiles [profP1, profP2]).conflicts.filter
        (fun c => c.varName == "KEY1")).map Conflict.winner = ["p2"] ∧
    ((resolveProfiles [profP2, profP1]).conflicts.filter
        (fun c => c.varName == "KEY1")).map Conflict.winner = ["p1"] :=
  ⟨claim_C1_last_wins_merge.1 [profP1, profP2] (by decide) "KEY1",
   claim_C1_last_wins_merge.2.1 [profP1, profP2] (by decide) "KEY1",
   claim_C1_last_wins_merge.2.2.1 storeW ["p1", "p2"] (by decide),
   (claim_C1_last_wins_merge.2.2.2 profP1 profP2 "KEY1" (by decide) (by decide)
     (by decide) (by decide)).1,
   (claim_C1_last_wins_merge.2.2.2 profP1 profP2 "KEY1" (by decide) (by decide)
     (by decide) (by decide)).2⟩

theorem claim_C5_witness :
    resolve storeW ["p1", "missing", "p2"] =
      .error ("Profile not found: " ++ "missing") ∧
    ∃ r, resolve storeW ["p1", "p2"] = .ok r :=
  ⟨claim_C5_fail_fast.1 storeW ["p1", "missing", "p2"] "missing" (by decide),
   claim_C5_fail_fast.2 storeW ["p1", "p2"] (by decide)⟩

/-! ## Characterization of `diff` -/

theorem diffSetFold_lookup (current : VarMap) (n : List (String × EnvVariable)) :
    ∀ (acc : List (String × String)) (k : String), (keysOf n).Nodup →
    lookupKey k (n.foldl (fun acc kv =>
        match lookupKey kv.1 current with
        | none => jsInsert acc kv.1 kv.2.value
        | some cv => if cv.value ≠ kv.2.value then jsInsert acc kv.1 kv.2.value
                     else acc) acc) =
      (match lookupKey k n with
       | none => lookupKey k acc
       | some ev =>
         match lookupKey k current with
         | none => some ev.value
         | some cv => if cv.value ≠ ev.value then some ev.value
                      else lookupKey k acc) := by
  induction n with
  | nil =>
    intro acc k _
    simp
  | cons e rest ih =>
    intro acc k hnd
    obtain ⟨k0, ev0⟩ := e
    simp only [keysOf, List.map_cons, List.nodup_cons] at hnd
    simp only [List.foldl_cons]
    by_cases hk : k0 = k
    · subst hk
      have hrest : lookupKey k0 rest = none :=
        (lookupKey_eq_none_iff k0 rest).mpr hnd.1
      rw [ih _ k0 hnd.2, hrest]
      simp only [lookupKey_cons, if_pos rfl]
      rcases hc : lookupKey k0 current with _ | cv
      · simp [lookupKey_jsInsert_self]
      · by_cases hv : cv.value ≠ ev0.value
        · simp [hv, lookupKey_jsInsert_self]
        · simp [hv]
    · have hne : k ≠ k0 := fun hc => hk hc.symm
      rw [ih _ k hnd.2]
      simp only [lookupKey_cons, hk, if_false]
      have hacc : lookupKey k
          (match lookupKey k0 current with
           | none => jsInsert acc k0 ev0.value
           | some cv => if cv.value ≠ ev0.value then jsInsert acc k0 ev0.value
                        else acc) = lookupKey k acc := by
        rcases hc : lookupKey k0 current with _ | cv
        · simp [lookupKey_jsInsert_ne k0 k _ acc hne]
        · by_cases hv : cv.value ≠ ev0.value <;>
            simp [hv, lookupKey_jsInsert_ne k0 k _ acc hne]
      rw [hacc]

theorem unsetFold_eq (next : VarMap) (l : VarMap) :
    ∀ acc : List String,
    l.foldl (fun acc kv =>
        if (lookupKey kv.1 next).isNone then acc ++ [kv.1] else acc) acc =
      acc ++ (keysOf l).filter (fun k => (lookupKey k next).isNone) := by
  induction l with
  | nil => intro acc; simp [keysOf]
  | cons e rest ih =>
    intro acc
    obtain ⟨k0, ev0⟩ := e
    simp only [List.foldl_cons]
    by_cases h : (lookupKey k0 next).isNone
    · rw [if_pos h, ih]
      simp [keysOf, List.filter_cons, h]
    · rw [if_neg h, ih]
      simp [keysOf, List.filter_cons, h]

theorem diff_toSet_lookup (current next : VarMap)
    (hnd : (keysOf next).Nodup) (k : String) :
    lookupKey k (diff current next).1 =
      (match lookupKey k next with
       | none => none
       | some ev =>
         match lookupKey k current with
         | none => some ev.value
         | some cv => if cv.value ≠ ev.value then some ev.value else none) := by
  have h := diffSetFold_lookup current next [] k hnd
  simp only [lookupKey_nil] at h
  exact h

theorem diff_toUnset (current next : VarMap) :
    (diff current next).2 =
      (keysOf current).filter (fun k => (lookupKey k next).isNone) := by
  have h := unsetFold_eq next current []
  rw [List.nil_append] at h
  exact h

theorem diffSetFold_id (current : VarMap) (l : List (String × EnvVariable))
    (h : ∀ kv ∈ l, ∃ cv, lookupKey kv.1 current = some cv ∧
        cv.value = kv.2.value) :
    ∀ acc, l.foldl (fun acc kv =>
        match lookupKey kv.1 current with
        | none => jsInsert acc kv.1 kv.2.value
        | some cv => if cv.value ≠ kv.2.value then jsInsert acc kv.1 kv.2.value
                     else acc) acc = acc := by
  induction l with
  | nil => intro acc; rfl
  | cons e rest ih =>
    intro acc
    obtain ⟨hc, hcv, hval⟩ := h e (List.mem_cons_self e rest)
    simp only [List.foldl_cons, hcv, hval]
    rw [if_neg (by simp [hval])]
    exact ih (fun kv hkv => h kv (List.mem_cons_of_mem e hkv)) acc

theorem diff_self (A : VarMap) (hnd : (keysOf A).Nodup) :
    diff A A = ([], []) := by
  have h1 : (diff A A).1 = [] := by
    have := diffSetFold_id A A (fun kv hkv => ⟨kv.2, by
      have hm : (kv.1, kv.2) ∈ A := by simpa using hkv
      exact lookupKey_of_mem_nodup kv.1 kv.2 A hnd hm, rfl⟩) []
    simpa [diff] using this
  have h2 : (diff A A).2 = [] := by
    rw [diff_toUnset]
    rw [List.filter_eq_nil_iff]
    intro k hk
    have : (lookupKey k A).isSome := (lookupKey_isSome_iff k A).mpr hk
    simp [Option.isNone_iff_eq_none]
    exact Option.isSome_iff_exists.mp this |>.elim (fun v hv => by simp [hv])
  have heta : diff A A = ((diff A A).1, (diff A A).2) := rfl
  rw [heta, h1, h2]

/-- C6: `diff` postcondition: `toSet` maps exactly the keys of `next` that
are new or changed to their `next` value; `toUnset` is exactly the keys of
`current` absent from `next`; and `diff(A, A)` is empty. -/
theorem claim_C6_diff_postcondition :
    (∀ (current next : VarMap), (keysOf next).Nodup → ∀ k : String,
      lookupKey k (diff current next).1 =
        (match lookupKey k next with
         | none => none
         | some ev =>
           match lookupKey k current with
           | none => some ev.value
           | some cv => if cv.value ≠ ev.value then some ev.value
                        else none)) ∧
    (∀ (current next : VarMap),
      (diff current next).2 =
        (keysOf current).filter (fun k => (lookupKey k next).isNone)) ∧
    (∀ A : VarMap, (keysOf A).Nodup → diff A A = ([], [])) :=
  ⟨diff_toSet_lookup, diff_toUnset, diff_self⟩

/-! ## Characterization of `computeRemoval` -/

theorem removalFoldAux (remaining : VarMap) (l : VarMap) :
    ∀ acc : List String × VarMap, (keysOf l).Nodup →
    (l.foldl (fun acc kv =>
        match lookupKey kv.1 remaining with
        | some v => (acc.1, jsInsert acc.2 kv.1 v)
        | none => (acc.1 ++ [kv.1], acc.2)) acc).1 =
      acc.1 ++ (keysOf l).filter (fun k => (lookupKey k remaining).isNone) ∧
    ∀ k, lookupKey k (l.foldl (fun acc kv =>
        match lookupKey kv.1 remaining with
        | some v => (acc.1, jsInsert acc.2 kv.1 v)
        | none => (acc.1 ++ [kv.1], acc.2)) acc).2 =
      (if k ∈ keysOf l ∧ (lookupKey k remaining).isSome
       then lookupKey k remaining else lookupKey k acc.2) := by
  induction l with
  | nil =>
    intro acc _
    constructor
    · simp [keysOf]
    · intro k
      simp [keysOf]
  | cons e rest ih =>
    intro acc hnd
    obtain ⟨k0, ev0⟩ := e
    simp only [keysOf, List.map_cons, List.nodup_cons] at hnd
    simp only [List.foldl_cons]
    rcases hr : lookupKey k0 remaining with _ | v
    · -- k0 queued for unset
      have := ih (acc.1 ++ [k0], acc.2) hnd.2
      constructor
      · rw [this.1]
        simp [keysOf, List.filter_cons, hr]
      · intro k
        rw [this.2 k]
        by_cases hk : k = k0
        · subst hk
          have hL : ¬ (k ∈ keysOf rest ∧ (lookupKey k remaining).isSome = true) :=
            fun hc => hnd.1 hc.1
          have hR : ¬ (k ∈ keysOf ((k, ev0) :: rest) ∧
              (lookupKey k remaining).isSome = true) := by
            intro hc
            rw [hr] at hc
            simp at hc
          rw [if_neg hL, if_neg hR]
        · have hiff : (k ∈ keysOf ((k0, ev0) :: rest)) ↔ k ∈ keysOf rest := by
            simp [keysOf, hk]
          by_cases hc : k ∈ keysOf rest ∧ (lookupKey k remaining).isSome = true
          · rw [if_pos hc, if_pos ⟨hiff.mpr hc.1, hc.2⟩]
          · rw [if_neg hc, if_neg (fun hc2 => hc ⟨hiff.mp hc2.1, hc2.2⟩)]
    · -- k0 kept with fresh value
      have := ih (acc.1, jsInsert acc.2 k0 v) hnd.2
      constructor
      · rw [this.1]
        simp [keysOf, List.filter_cons, hr]
      · intro k
        rw [this.2 k]
        by_cases hk : k = k0
        · subst hk
          have hL : ¬ (k ∈ keysOf rest ∧ (lookupKey k remaining).isSome = true) :=
            fun hc => hnd.1 hc.1
          have hR : k ∈ keysOf ((k, ev0) :: rest) ∧
              (lookupKey k remaining).isSome = true := by
            refine ⟨?_, by simp [hr]⟩
            simp [keysOf]
          rw [if_neg hL, if_pos hR, hr]
          exact lookupKey_jsInsert_self k v acc.2
        · have hne : k ≠ k0 := hk
          have hins : lookupKey k (acc.1, jsInsert acc.2 k0 v).2 =
              lookupKey k acc.2 :=
            lookupKey_jsInsert_ne k0 k v acc.2 hne
          have hiff : (k ∈ keysOf ((k0, ev0) :: rest)) ↔ k ∈ keysOf rest := by
            simp [keysOf, hk]
          by_cases hc : k ∈ keysOf rest ∧ (lookupKey k remaining).isSome = true
          · rw [if_pos hc, if_pos ⟨hiff.mpr hc.1, hc.2⟩]
          · rw [if_neg hc, if_neg (fun hc2 => hc ⟨hiff.mp hc2.1, hc2.2⟩), hins]

theorem removalFold_spec (remaining current : VarMap)
    (hnd : (keysOf current).Nodup) :
    (removalFold remaining current).1 =
      (keysOf current).filter (fun k => (lookupKey k remaining).isNone) ∧
    ∀ k, lookupKey k (removalFold remaining current).2 =
      (if k ∈ keysOf current then lookupKey k remaining else none) := by
  have h := removalFoldAux remaining current ([], []) hnd
  constructor
  · simpa [removalFold] using h.1
  · intro k
    have h2 := h.2 k
    rw [removalFold]
    rw [h2]
    by_cases hmem : k ∈ keysOf current
    · by_cases hs : (lookupKey k remaining).isSome
      · simp [hmem, hs]
      · have : lookupKey k remaining = none := by
          simpa [Option.isNone_iff_eq_none] using hs
        simp [hmem, hs, this]
    · simp [hmem]

theorem computeRemoval_of_fresh (store : String → Option Profile)
    (current : VarMap) (names : List String) (fresh : VarMap)
    (hfresh : freshResolution store names = .ok fresh) :
    computeRemoval store current names = .ok (removalFold fresh current) := by
  unfold computeRemoval
  rw [hfresh]
  rfl

/-- C4: `computeRemoval` partition: the empty remaining list resolves to an
empty map without error; otherwise, given the fresh resolution of the
remaining names, every current key still present in it is kept with the
freshly resolved entry and every other current key is queued for unset. -/
theorem claim_C4_computeRemoval_partition :
    (∀ store : String → Option Profile, freshResolution store [] = .ok []) ∧
    (∀ (store : String → Option Profile) (current : VarMap)
       (names : List String) (fresh : VarMap), (keysOf current).Nodup →
      freshResolution store names = .ok fresh →
      computeRemoval store current names = .ok (removalFold fresh current) ∧
      (removalFold fresh current).1 =
        (keysOf current).filter (fun k => (lookupKey k fresh).isNone) ∧
      ∀ k, lookupKey k (removalFold fresh current).2 =
        (if k ∈ keysOf current then lookupKey k fresh else none)) := by
  constructor
  · intro store
    rfl
  · intro store current names fresh hnd hfresh
    exact ⟨computeRemoval_of_fresh store current names fresh hfresh,
      (removalFold_spec fresh current hnd).1,
      (removalFold_spec fresh current hnd).2⟩

/-! Concrete data for the C4 and C6 witnesses (scenario 3 of the spec:
`p1` and `p2` both provide `SHARED`, `p1` additionally provides `ONLY1`;
`p1` is removed while `p2` stays active). -/

def profShared2 : Profile := ⟨"p2", [("SHARED", "v2")]⟩

def storeShared : String → Option Profile := fun n =>
  if n = "p2" then some profShared2 else none

def currentShared : VarMap :=
  [("SHARED", EnvVariable.mk "v1" "p1"), ("ONLY1", EnvVariable.mk "x" "p1")]

def freshShared : VarMap := [("SHARED", EnvVariable.mk "v2" "p2")]

theorem claim_C4_witness :
    computeRemoval storeShared currentShared ["p2"] =
      .ok (removalFold freshShared currentShared) ∧
    (removalFold freshShared currentShared).1 =
      (keysOf currentShared).filter
        (fun k => (lookupKey k freshShared).isNone) ∧
    ∀ k, lookupKey k (removalFold freshShared currentShared).2 =
      (if k ∈ keysOf currentShared then lookupKey k freshShared else none) :=
  claim_C4_computeRemoval_partition.2 storeShared currentShared ["p2"]
    freshShared (by decide) (by rfl)

def diffCurW : VarMap := [("KEY1", EnvVariable.mk "a" "p1")]

def diffNextW : VarMap :=
  [("KEY1", EnvVariable.mk "b" "p2"), ("KEY2", EnvVariable.mk "c" "p2")]

theorem claim_C6_witness :
    (lookupKey "KEY1" (diff diffCurW diffNextW).1 =
      (match lookupKey "KEY1" diffNextW with
       | none => none
       | some ev =>
         match lookupKey "KEY1" diffCurW with
         | none => some ev.value
         | some cv => if cv.value ≠ ev.value then some ev.value else none)) ∧
    (diff diffCurW diffNextW).2 =
      (keysOf diffCurW).filter (fun k => (lookupKey k diffNextW).isNone) ∧
    diff diffCurW diffCurW = ([], []) :=
  ⟨claim_C6_diff_postcondition.1 diffCurW diffNextW (by decide) "KEY1",
   claim_C6_diff_postcondition.2.1 diffCurW diffNextW,
   claim_C6_diff_postcondition.2.2 diffCurW (by decide)⟩

theorem claim_C10_witness :
    resolve storeW ["p1", "p1"] = .ok (resolveProfiles [profP1, profP1]) ∧
    (resolveProfiles [profP1, profP1]).conflicts.filter
        (fun c => c.varName == "KEY1") =
      [Conflict.mk "KEY1" ["p1", "p1"] "p1"] :=
  ⟨(claim_C10_duplicate_self_conflict storeW profP1 (by decide) (by decide)).1,
   (claim_C10_duplicate_self_conflict storeW profP1 (by decide) (by decide)).2
     "KEY1" (by decide)⟩

/-! ## StateManager (src/core/StateManager.ts) -/

/-- `StateData` from `types.ts`: the persisted session state. The snapshot
maps a key to the captured environment value, `none` standing for the JSON
`null` was-unset marker; the source field `variables` is called `vars`. -/
structure StateData where
  active_profiles : List String
  vars : List (String × EnvVariable)
  snapshot : List (String × Option String)
  applied_at : String
deriving DecidableEq, Repr

/-- `StateManager.getEmptyState` (the timestamp is passed in). -/
def getEmptyState (now : String) : StateData := ⟨[], [], [], now⟩

/-- `StateManager.load`, with the file-system access passed in:
`fileExistsAtPath` is `fileExists(this.statePath)`, `readResult` is
`some content` on a successful read (`none` when `readFile` throws), and
`parse` is `JSON.parse` plus the `as StateData` cast (`none` when
`JSON.parse` throws). Both throws happen inside the `try` and are caught. -/
def load (now : String) (fileExistsAtPath : Bool) (readResult : Option String)
    (parse : String → Option StateData) : StateData :=
  if fileExistsAtPath then
    match readResult with
    | none => getEmptyState now
    | some content =>
      match parse content with
      | none => getEmptyState now
      | some data => data
  else getEmptyState now

/-- The snapshot-merge loop shared by `update` and `addProfiles`: for every
key of `variables` not already present in the snapshot (`key in snapshot`),
capture the real environment's current value (`process.env[key] ?? null`). -/
def captureSnapshot (env : String → Option String)
    (variableList : List (String × EnvVariable))
    (snap : List (String × Option String)) : List (String × Option String) :=
  variableList.foldl (fun s kv =>
    if (lookupKey kv.1 s).isSome then s else s ++ [(kv.1, env kv.1)]) snap

/-- `StateManager.update`: replace `active_profiles` and `variables`
wholesale, merging the snapshot first. -/
def update (env : String → Option String) (now : String) (st : StateData)
    (profiles : List String) (variableList : List (String × EnvVariable)) :
    StateData :=
  ⟨profiles, variableList, captureSnapshot env variableList st.snapshot, now⟩

/-- `StateManager.addProfiles`: append new names without duplicates, merge
the snapshot with first-capture-wins, and merge the variables (new entries
overwrite). -/
def addProfiles (env : String → Option String) (now : String) (st : StateData)
    (profilesToAdd : List String)
    (newVariables : List (String × EnvVariable)) : StateData :=
  let profiles := profilesToAdd.foldl
    (fun ps q => if q ∈ ps then ps else ps ++ [q]) st.active_profiles
  let snapshot := captureSnapshot env newVariables st.snapshot
  let variableList := newVariables.foldl
    (fun vs kv => jsInsert vs kv.1 kv.2) st.vars
  ⟨profiles, variableList, snapshot, now⟩

/-- One persisted-state mutation, carrying the wall-clock time and process
environment observed when it runs. -/
inductive StateOp where
  | opUpdate (env : String → Option String) (now : String)
      (profiles : List String) (variableList : List (String × EnvVariable))
  | opAdd (env : String → Option String) (now : String)
      (names : List String) (variableList : List (String × EnvVariable))

def applyOp (st : StateData) : StateOp → StateData
  | .opUpdate env now ps vs => update env now st ps vs
  | .opAdd env now ns vs => addProfiles env now st ns vs

/-- Run a sequence of `update`/`addProfiles` calls from a starting state. -/
def runOps (init : StateData) (ops : List StateOp) : StateData :=
  ops.foldl applyOp init

theorem captureSnapshot_cons (env : String → Option String)
    (kv : String × EnvVariable) (rest : List (String × EnvVariable))
    (snap : List (String × Option String)) :
    captureSnapshot env (kv :: rest) snap =
      captureSnapshot env rest
        (if (lookupKey kv.1 snap).isSome then snap
         else snap ++ [(kv.1, env kv.1)]) := rfl

theorem captureSnapshot_preserves (env : String → Option String)
    (variableList : List (String × EnvVariable)) :
    ∀ snap k v, lookupKey k snap = some v →
      lookupKey k (captureSnapshot env variableList snap) = some v := by
  induction variableList with
  | nil => intro snap k v h; exact h
  | cons kv rest ih =>
    intro snap k v h
    rw [captureSnapshot_cons]
    by_cases hp : (lookupKey kv.1 snap).isSome
    · rw [if_pos hp]
      exact ih snap k v h
    · rw [if_neg hp]
      apply ih
      rw [lookupKey_append, h]
      simp

theorem captureSnapshot_covers (env : String → Option String)
    (variableList : List (String × EnvVariable)) :
    ∀ snap k, (k ∈ keysOf variableList ∨ (lookupKey k snap).isSome) →
      (lookupKey k (captureSnapshot env variableList snap)).isSome := by
  induction variableList with
  | nil =>
    intro snap k h
    rcases h with h | h
    · simp [keysOf] at h
    · exact h
  | cons kv rest ih =>
    intro snap k h
    rw [captureSnapshot_cons]
    have hcons : keysOf (kv :: rest) = kv.1 :: keysOf rest := rfl
    by_cases hp : (lookupKey kv.1 snap).isSome
    · rw [if_pos hp]
      apply ih
      rcases h with h | h
      · rw [hcons] at h
        rcases List.mem_cons.mp h with heq | hm
        · right; rw [heq]; exact hp
        · left; exact hm
      · right; exact h
    · rw [if_neg hp]
      apply ih
      rcases h with h | h
      · rw [hcons] at h
        rcases List.mem_cons.mp h with heq | hm
        · right
          have hnone : lookupKey kv.1 snap = none :=
            Option.not_isSome_iff_eq_none.mp hp
          rw [heq, lookupKey_append, hnone]
          simp
        · left; exact hm
      · right
        rw [lookupKey_append]
        rcases hs : lookupKey k snap with _ | w
        · rw [hs] at h; simp at h
        · simp [hs]

theorem keysOf_jsInsert_mem {κ α : Type} [DecidableEq κ] (m : List (κ × α)) (k0 k : κ)
    (v : α) (h : k ∈ keysOf (jsInsert m k0 v)) : k ∈ keysOf m ∨ k = k0 := by
  by_cases hs : (lookupKey k0 m).isSome
  · rw [keysOf_jsInsert_of_isSome k0 v m hs] at h
    exact Or.inl h
  · rw [jsInsert_of_none k0 v m (by simpa using hs)] at h
    simp only [keysOf, List.map_append, List.map_cons, List.map_nil,
      List.mem_append, List.mem_singleton] at h
    rcases h with h | h
    · exact Or.inl h
    · exact Or.inr h

theorem keysOf_jsInsertFold (l : List (String × EnvVariable)) :
    ∀ (m : List (String × EnvVariable)) (k : String),
      k ∈ keysOf (l.foldl (fun vs kv => jsInsert vs kv.1 kv.2) m) →
      k ∈ keysOf m ∨ k ∈ keysOf l := by
  induction l with
  | nil => intro m k h; exact Or.inl h
  | cons kv rest ih =>
    intro m k h
    simp only [List.foldl_cons] at h
    rcases ih (jsInsert m kv.1 kv.2) k h with h2 | h2
    · rcases keysOf_jsInsert_mem m kv.1 k kv.2 h2 with h3 | h3
      · exact Or.inl h3
      · right
        simp [keysOf, h3]
    · right
      simp only [keysOf, List.map_cons, List.mem_cons]
      exact Or.inr h2

/-- The snapshot invariant: every tracked variable has a captured snapshot
entry. -/
def snapshotInv (st : StateData) : Prop :=
  ∀ k, k ∈ keysOf st.vars → (lookupKey k st.snapshot).isSome

theorem applyOp_inv (st : StateData) (op : StateOp) (h : snapshotInv st) :
    snapshotInv (applyOp st op) := by
  cases op with
  | opUpdate env now ps vs =>
    intro k hk
    exact captureSnapshot_covers env vs st.snapshot k (Or.inl hk)
  | opAdd env now ns vs =>
    intro k hk
    have hk2 := keysOf_jsInsertFold vs st.vars k hk
    rcases hk2 with h2 | h2
    · exact captureSnapshot_covers env vs st.snapshot k (Or.inr (h k h2))
    · exact captureSnapshot_covers env vs st.snapshot k (Or.inl h2)

theorem applyOp_snapshot_mono (st : StateData) (op : StateOp) (k : String)
    (v : Option String) (h : lookupKey k st.snapshot = some v) :
    lookupKey k (applyOp st op).snapshot = some v := by
  cases op with
  | opUpdate env now ps vs => exact captureSnapshot_preserves env vs st.snapshot k v h
  | opAdd env now ns vs => exact captureSnapshot_preserves env vs st.snapshot k v h

theorem runOps_inv (ops : List StateOp) :
    ∀ init : StateData, snapshotInv init → snapshotInv (runOps init ops) := by
  induction ops with
  | nil => intro init h; exact h
  | cons op rest ih =>
    intro init h
    exact ih (applyOp init op) (applyOp_inv init op h)

theorem runOps_snapshot_mono (more : List StateOp) :
    ∀ (st : StateData) (k : String) (v : Option String),
      lookupKey k st.snapshot = some v →
      lookupKey k (runOps st more).snapshot = some v := by
  induction more with
  | nil => intro st k v h; exact h
  | cons op rest ih =>
    intro st k v h
    exact ih (applyOp st op) k v (applyOp_snapshot_mono st op k v h)

/-- C3: Snapshot invariant with first-capture-wins: starting from the empty
state, after any sequence of `update`/`addProfiles` calls every key of
`variables` has a snapshot entry, and a snapshot value, once captured, is
never changed by any later `update`/`addProfiles` call (in particular by
repeating an `update` with the same variable set). -/
theorem claim_C3_snapshot_invariant :
    (∀ (now : String) (ops : List StateOp) (k : String),
      k ∈ keysOf (runOps (getEmptyState now) ops).vars →
      (lookupKey k (runOps (getEmptyState now) ops).snapshot).isSome) ∧
    (∀ (now : String) (ops more : List StateOp) (k : String) (v : Option String),
      lookupKey k (runOps (getEmptyState now) ops).snapshot = some v →
      lookupKey k (runOps (getEmptyState now) (ops ++ more)).snapshot = some v) := by
  constructor
  · intro now ops k hk
    exact runOps_inv ops (getEmptyState now)
      (fun k2 hk2 => by simp [getEmptyState, keysOf] at hk2) k hk
  · intro now ops more k v h
    have : runOps (getEmptyState now) (ops ++ more) =
        runOps (runOps (getEmptyState now) ops) more := by
      rw [runOps, runOps, runOps, List.foldl_append]
    rw [this]
    exact runOps_snapshot_mono more (runOps (getEmptyState now) ops) k v h

/-- C7: Lenient state load: `load` is a total function; a missing file, a
failing read, or content that fails to parse as state data all yield the
empty state (with the current timestamp) instead of an error, and only a
successful parse returns the parsed data. -/
theorem claim_C7_lenient_state_load (now : String)
    (parse : String → Option StateData) :
    (∀ r : Option String, load now false r parse = getEmptyState now) ∧
    load now true none parse = getEmptyState now ∧
    (∀ content : String, parse content = none →
      load now true (some content) parse = getEmptyState now) ∧
    (∀ (content : String) (d : StateData), parse content = some d →
      load now true (some content) parse = d) := by
  refine ⟨fun r => rfl, rfl, ?_, ?_⟩
  · intro content h
    simp [load, h]
  · intro content d h
    simp [load, h]

/-! Concrete data for the C3 and C7 witnesses. -/

def opW : StateOp :=
  .opUpdate (fun _ => some "orig") "t1" ["p"] [("K", EnvVariable.mk "v" "p")]

theorem claim_C3_witness :
    ("K" ∈ keysOf (runOps (getEmptyState "t0") [opW]).vars) ∧
    (lookupKey "K" (runOps (getEmptyState "t0") [opW]).snapshot).isSome = true ∧
    lookupKey "K" (runOps (getEmptyState "t0") ([opW] ++ [opW])).snapshot =
      some (some "orig") :=
  ⟨by decide,
   claim_C3_snapshot_invariant.1 "t0" [opW] "K" (by decide),
   claim_C3_snapshot_invariant.2 "t0" [opW] [opW] "K" (some "orig") (by decide)⟩

def parseW : String → Option StateData := fun s =>
  if s = "good" then some (getEmptyState "tg") else none

theorem claim_C7_witness :
    load "t0" false (some "whatever") parseW = getEmptyState "t0" ∧
    load "t0" true none parseW = getEmptyState "t0" ∧
    load "t0" true (some "garbage") parseW = getEmptyState "t0" ∧
    load "t0" true (some "good") parseW = getEmptyState "tg" :=
  ⟨(claim_C7_lenient_state_load "t0" parseW).1 (some "whatever"),
   (claim_C7_lenient_state_load "t0" parseW).2.1,
   (claim_C7_lenient_state_load "t0" parseW).2.2.1 "garbage" (by decide),
   (claim_C7_lenient_state_load "t0" parseW).2.2.2 "good" (getEmptyState "tg")
     (by decide)⟩

/-! ## Shell value sanitization and export rendering
(src/utils.ts `sanitizeForShell`, ShellAdapter `generateExport`) -/

/-- `sanitizeForShell` from `utils.ts`: replace every single quote with the
four-character sequence quote backslash quote quote. -/
def sanitizeForShell : List Char → List Char
  | [] => []
  | c :: rest =>
    (if c = '\'' then ['\'', '\\', '\'', '\''] else [c]) ++ sanitizeForShell rest

/-- The supported shell dialects (`ShellType` in `types.ts`). -/
inductive ShellType where
  | bash
  | zsh
  | fish
  | unknown
deriving DecidableEq, Repr

/-- `ShellAdapter.generateExport`: wrap the sanitized value in single quotes
behind the dialect's export syntax; bash, zsh and the unknown fallback share
one syntax, fish has its own. -/
def generateExport (shell : ShellType) (key value : List Char) : List Char :=
  match shell with
  | .fish =>
    "set -gx ".toList ++ key ++ " ".toList ++ ['\''] ++
      sanitizeForShell value ++ ['\'']
  | _ =>
    "export ".toList ++ key ++ "=".toList ++ ['\''] ++
      sanitizeForShell value ++ ['\'']

/-- The dialect's export keyword and key/value separator, for stating the
shape of the rendered statement. -/
def exportPrefix : ShellType → List Char
  | .fish => "set -gx ".toList
  | _ => "export ".toList

def assignSep : ShellType → List Char
  | .fish => " ".toList
  | _ => "=".toList

/-- Modelled from the spec: a minimal evaluator for the single-quoting
semantics shared by the target shells (bash/zsh and fish), reading one
command word left to right.  Outside quotes, a single quote opens a quoted
section, a backslash escapes the next character, and shell metacharacters
(whitespace, dollar, backtick, double quote, semicolon, ampersand, pipe,
redirections, parentheses) are rejected with `none`, since they would
trigger expansion, word splitting or command substitution rather than
contribute literal characters.  Inside single quotes every character is
literal and the next single quote closes the section; an unterminated quote
is rejected.  `some v` means the word evaluates to exactly `v` with no
command substitution and no truncation. -/
def evalWordAux : Bool → List Char → Option (List Char)
  | false, [] => some []
  | false, c :: rest =>
    if c = '\'' then evalWordAux true rest
    else if c = '\\' then
      match rest with
      | [] => none
      | d :: rest2 => (evalWordAux false rest2).map (fun t => d :: t)
    else if c = '$' ∨ c = Char.ofNat 96 ∨ c = '"' ∨ c = ' ' ∨ c = '\t' ∨
        c = '\n' ∨ c = ';' ∨ c = '&' ∨ c = '|' ∨ c = '<' ∨ c = '>' ∨
        c = '(' ∨ c = ')' then none
    else (evalWordAux false rest).map (fun t => c :: t)
  | true, [] => none
  | true, c :: rest =>
    if c = '\'' then evalWordAux false rest
    else (evalWordAux true rest).map (fun t => c :: t)

def evalWord (w : List Char) : Option (List Char) := evalWordAux false w

theorem evalWordAux_true_quote (t : List Char) :
    evalWordAux true ('\'' :: t) = evalWordAux false t := by
  conv_lhs => unfold evalWordAux
  simp

theorem evalWordAux_true_other (c : Char) (t : List Char) (h : ¬ (c = '\'')) :
    evalWordAux true (c :: t) = (evalWordAux true t).map (fun r => c :: r) := by
  conv_lhs => unfold evalWordAux
  simp [h]

theorem evalWordAux_false_quote (t : List Char) :
    evalWordAux false ('\'' :: t) = evalWordAux true t := by
  conv_lhs => unfold evalWordAux
  simp

theorem evalWordAux_false_backslash (d : Char) (t : List Char) :
    evalWordAux false ('\\' :: d :: t) =
      (evalWordAux false t).map (fun r => d :: r) := by
  conv_lhs => unfold evalWordAux
  simp

theorem evalWordAux_quoted (v : List Char) :
    evalWordAux true (sanitizeForShell v ++ ['\'']) = some v := by
  induction v with
  | nil => rfl
  | cons c rest ih =>
    by_cases hc : c = '\''
    · subst hc
      have hs : sanitizeForShell ('\'' :: rest) =
          '\'' :: '\\' :: '\'' :: '\'' :: sanitizeForShell rest := by
        simp [sanitizeForShell]
      rw [hs]
      rw [List.cons_append, evalWordAux_true_quote]
      rw [List.cons_append, List.cons_append, evalWordAux_false_backslash]
      rw [List.cons_append, evalWordAux_false_quote, ih]
      rfl
    · have hs : sanitizeForShell (c :: rest) = c :: sanitizeForShell rest := by
        simp [sanitizeForShell, hc]
      rw [hs, List.cons_append, evalWordAux_true_other c _ hc, ih]
      rfl

theorem evalWord_quoted (v : List Char) :
    evalWord ('\'' :: (sanitizeForShell v ++ ['\''])) = some v := by
  rw [evalWord, evalWordAux_false_quote]
  exact evalWordAux_quoted v

/-- C2: Shell-escaping round trip: for every key and every value (quotes,
backticks and dollar sequences included), the rendered export statement is
the dialect's export syntax applied to the key followed by one single-quoted
word, and evaluating that word under the shells' quoting semantics yields
exactly the original value — `some` rules out hitting any unquoted
metacharacter, so no command substitution and no truncation occur. -/
theorem claim_C2_shell_escaping_roundtrip (shell : ShellType)
    (key value : List Char) :
    generateExport shell key value =
      exportPrefix shell ++ key ++ assignSep shell ++
        ('\'' :: (sanitizeForShell value ++ ['\''])) ∧
    evalWord ('\'' :: (sanitizeForShell value ++ ['\''])) = some value := by
  constructor
  · cases shell <;> simp [generateExport, exportPrefix, assignSep]
  · exact evalWord_quoted value

/-! ## Profile body parsing (`ProfileStore.parseVariables`)

`parseVariables` works on the raw characters of the profile file, so this
section models strings as `List Char`: the content is split on newline
characters, each line is trimmed and classified, and the surviving
`KEY=VALUE` lines populate a JS object. -/

/-- The ASCII whitespace characters JS `String.prototype.trim` removes (the
profile format only ever meets these; the full JS set also has Unicode
spaces). -/
def isJsWhitespace (c : Char) : Bool :=
  c = ' ' || c = '\t' || c = '\n' || c = '\r' || c = '\x0b' || c = '\x0c'

/-- JS `line.trim()`. -/
def trimChars (s : List Char) : List Char :=
  ((s.dropWhile isJsWhitespace).reverse.dropWhile isJsWhitespace).reverse

/-- JS `content.split('\n')`. -/
def splitOnNl : List Char → List (List Char)
  | [] => [[]]
  | c :: rest =>
    if c = '\n' then [] :: splitOnNl rest
    else
      match splitOnNl rest with
      | [] => [[c]]
      | l :: ls => (c :: l) :: ls

/-- The quote-stripping step: `value.slice(1, -1)` when the value starts and
ends with a double quote or starts and ends with a single quote. -/
def stripQuotes (v : List Char) : List Char :=
  if (v.head? = some '"' ∧ v.getLast? = some '"') ∨
     (v.head? = some '\'' ∧ v.getLast? = some '\'') then
    (v.drop 1).dropLast
  else v

/-- The loop body of `ProfileStore.parseVariables` for one line. -/
def parseLine (vars : List (List Char × List Char)) (line : List Char) :
    List (List Char × List Char) :=
  let trimmed := trimChars line
  if trimmed.isEmpty then vars
  else if trimmed.head? = some '#' then vars
  else
    match trimmed.findIdx? (fun c => c = '=') with
    | none => vars
    | some i =>
      let key := trimChars (trimmed.take i)
      let value := stripQuotes (trimChars (trimmed.drop (i + 1)))
      if key.isEmpty then vars else jsInsert vars key value

/-- `ProfileStore.parseVariables`. -/
def parseVariables (content : List Char) : List (List Char × List Char) :=
  (splitOnNl content).foldl parseLine []

/-- The spec's reading of the per-line rule, as one total function: ignore
blank lines and lines whose trimmed form starts with a hash, silently skip
lines without an equals sign, split every other line at its first equals
sign into a trimmed key and trimmed value, strip one pair of surrounding
matching single or double quotes from the value, and drop entries with an
empty key. -/
def parseLineSpec (line : List Char) : Option (List Char × List Char) :=
  let trimmed := trimChars line
  if trimmed.isEmpty then none
  else if trimmed.head? = some '#' then none
  else
    match trimmed.findIdx? (fun c => c = '=') with
    | none => none
    | some i =>
      let key := trimChars (trimmed.take i)
      let value := stripQuotes (trimChars (trimmed.drop (i + 1)))
      if key.isEmpty then none else some (key, value)

theorem foldl_congr_fun {α β : Type} (f g : α → β → α)
    (h : ∀ a b, f a b = g a b) :
    ∀ (l : List β) (init : α), l.foldl f init = l.foldl g init := by
  intro l
  induction l with
  | nil => intro init; rfl
  | cons b rest ih =>
    intro init
    simp only [List.foldl_cons, h]
    exact ih _

theorem parseLine_eq_spec (vars : List (List Char × List Char))
    (line : List Char) :
    parseLine vars line =
      (match parseLineSpec line with
       | none => vars
       | some kv => jsInsert vars kv.1 kv.2) := by
  rw [parseLine, parseLineSpec]
  by_cases h1 : (trimChars line).isEmpty
  · simp [h1]
  · simp only [h1, if_false]
    by_cases h2 : (trimChars line).head? = some '#'
    · simp [h2]
    · simp only [h2, if_false]
      rcases h3 : (trimChars line).findIdx? (fun c => c = '=') with _ | i
      · simp
      · simp only []
        by_cases h4 :
            (trimChars ((trimChars line).take i)).isEmpty
        · simp [h4]
        · simp [h4]

/-- C9: Profile body parsing: `parseVariables` equals, line by line, the
spec's rule (blank and comment lines ignored, lines without an equals sign
skipped, other lines split at the first equals sign into trimmed key and
trimmed value with one pair of surrounding matching quotes stripped, empty
keys dropped); the conjuncts also pin the behaviour on one concrete profile
body exercising every case. -/
theorem claim_C9_parse_variables :
    (∀ content : List Char,
      parseVariables content =
        (splitOnNl content).foldl (fun vars line =>
          match parseLineSpec line with
          | none => vars
          | some kv => jsInsert vars kv.1 kv.2) []) ∧
    parseVariables "# c\nA=1\nnoequals\nB='x y'\n\n C = 2 \n=d".toList =
      [("A".toList, "1".toList), ("B".toList, "x y".toList),
       ("C".toList, "2".toList)] ∧
    parseVariables "K=\"v\"\nK=w".toList = [("K".toList, "w".toList)] := by
  refine ⟨?_, by decide, by decide⟩
  intro content
  rw [parseVariables]
  exact foldl_congr_fun parseLine _ parseLine_eq_spec (splitOnNl content) []

/-! ## Shell wrapper installation (ShellAdapter markers, removeWrapper,
addWrapper)

The rc-file content is a raw string, so this section again works on
`List Char`.  `indexOfFrom` is JS `String.indexOf` for a pattern,
`dropTrailingNewlines`/`dropLeadingNewlines` are the two regex
replacements, and `countOccur` counts the positions at which a pattern
occurs (to state "exactly one marked block"). -/

def getMarkerStart : List Char := "# >>> envize initialize >>>".toList

def getMarkerEnd : List Char := "# <<< envize initialize <<<".toList

/-- The bash/zsh wrapper: the template literal of `getBashZshWrapper`
after `.trim()`. -/
def bashZshWrapper : List Char :=
  ("# envize shell function wrapper\nenvize() \x7b\n  case \"$1\" in\n    use|add|remove|reset)\n      local output\n      output=\"$(command envize \"$@\" --emit-shell 2>/dev/null)\"\n      if [ $? -eq 0 ]; then\n        eval \"$output\"\n        command envize \"$@\" --emit-human 1>&2\n      else\n        command envize \"$@\" 1>&2\n      fi\n      ;;\n    *)\n      command envize \"$@\"\n      ;;\n  esac\n\x7d\n\n# Source persisted env vars if they exist\nif [ -f \"$HOME/.envize/active.sh\" ]; then\n  source \"$HOME/.envize/active.sh\"\nfi").toList

/-- The fish wrapper: the template literal of `getFishWrapper` after
`.trim()`. -/
def fishWrapper : List Char :=
  ("# envize shell function wrapper\nfunction envize\n  switch $argv[1]\n    case use add remove reset\n      set -l output (command envize $argv --emit-shell 2>/dev/null)\n      if test $status -eq 0\n        eval $output\n        command envize $argv --emit-human 1>&2\n      else\n        command envize $argv 1>&2\n      end\n    case '*'\n      command envize $argv\n  end\nend\n\n# Source persisted env vars if they exist\nif test -f \"$HOME/.envize/active.fish\"\n  source \"$HOME/.envize/active.fish\"\nend").toList

/-- `ShellAdapter.getShellWrapper`: fish gets its own wrapper, every other
dialect (bash, zsh, unknown) falls back to the bash/zsh one. -/
def getShellWrapper : ShellType → List Char
  | .fish => fishWrapper
  | _ => bashZshWrapper

/-- `ShellAdapter.getFullWrapperBlock`. -/
def getFullWrapperBlock (sh : ShellType) : List Char :=
  getMarkerStart ++ "\n".toList ++ getShellWrapper sh ++ "\n".toList ++
    getMarkerEnd

/-- JS `content.indexOf(pat)`: the position of the first occurrence. -/
def indexOfFrom (pat : List Char) : List Char → Option Nat
  | [] => if pat.isEmpty then some 0 else none
  | c :: rest =>
    if pat.isPrefixOf (c :: rest) then some 0
    else (indexOfFrom pat rest).map (· + 1)

/-- The number of positions at which `pat` occurs in a string. -/
def countOccur (pat : List Char) : List Char → Nat
  | [] => 0
  | c :: rest =>
    (if pat.isPrefixOf (c :: rest) then 1 else 0) + countOccur pat rest

/-- The `replace(/^\n+/, '')` step of `removeWrapper`. -/
def dropLeadingNewlines (s : List Char) : List Char :=
  s.dropWhile (fun c => c = '\n')

/-- The `replace(/\n+$/, '')` step of `removeWrapper`. -/
def dropTrailingNewlines : List Char → List Char
  | [] => []
  | c :: rest =>
    match dropTrailingNewlines rest with
    | [] => if c = '\n' then [] else [c]
    | r => c :: r

/-- JS `s.endsWith('\n')`. -/
def endsWithNewline : List Char → Bool
  | [] => false
  | [c] => c == '\n'
  | _ :: c :: rest => endsWithNewline (c :: rest)

/-- `ShellAdapter.removeWrapper`. -/
def removeWrapper (content : List Char) : List Char :=
  match indexOfFrom getMarkerStart content with
  | none => content
  | some si =>
    match indexOfFrom getMarkerEnd content with
    | none => content
    | some ei =>
      let before := dropTrailingNewlines (content.take si)
      let after :=
        dropLeadingNewlines (content.drop (ei + getMarkerEnd.length))
      before ++
        (if before.isEmpty || after.isEmpty then [] else "\n\n".toList) ++
        after

/-- `ShellAdapter.addWrapper`: remove any existing block, then append the
marked block at the end. -/
def addWrapper (sh : ShellType) (content : List Char) : List Char :=
  let cleaned := removeWrapper content
  let separator :=
    if endsWithNewline cleaned then "\n".toList else "\n\n".toList
  cleaned ++ separator ++ getFullWrapperBlock sh ++ "\n".toList

/-! ### Elementary facts about substring search on character lists -/

theorem countOccur_cons (p : List Char) (c : Char) (t : List Char) :
    countOccur p (c :: t) =
      (if p.isPrefixOf (c :: t) then 1 else 0) + countOccur p t := rfl

theorem indexOfFrom_cons (p : List Char) (c : Char) (t : List Char) :
    indexOfFrom p (c :: t) =
      (if p.isPrefixOf (c :: t) then some 0
       else (indexOfFrom p t).map (· + 1)) := rfl

theorem isPrefixOf_extend (p x b : List Char) (h : p.isPrefixOf x) :
    p.isPrefixOf (x ++ b) := by
  rw [List.isPrefixOf_iff_prefix] at h ⊢
  exact h.trans (List.prefix_append x b)

theorem isPrefixOf_append_self (p r : List Char) : p.isPrefixOf (p ++ r) := by
  rw [List.isPrefixOf_iff_prefix]
  exact List.prefix_append p r

theorem bool_eq_false_of_not {b : Bool} (h : ¬ (b = true)) : b = false := by
  cases b
  · rfl
  · exact absurd rfl h

theorem isPrefixOf_head_ne (p : List Char) (a : Char) (hp : p.head? = some a)
    (c : Char) (hne : ¬ (a = c)) (t : List Char) :
    p.isPrefixOf (c :: t) = false := by
  cases p with
  | nil => simp at hp
  | cons a' p' =>
    have ha : a' = a := by simpa using hp
    show (a' == c && p'.isPrefixOf t) = false
    have hb : (a' == c) = false :=
      beq_eq_false_iff_ne.mpr (fun hc => hne (ha.symm.trans hc))
    rw [hb]
    rfl

theorem noNl_isPrefixOf_append (p : List Char) (hp : ∀ c ∈ p, ¬ (c = '\n')) :
    ∀ (x b : List Char), b.head? = some '\n' →
      p.isPrefixOf (x ++ b) = p.isPrefixOf x := by
  induction p with
  | nil =>
    intro x b _
    have h1 : List.isPrefixOf ([] : List Char) (x ++ b) = true := by
      rw [List.isPrefixOf_iff_prefix]
      exact List.nil_prefix
    have h2 : List.isPrefixOf ([] : List Char) x = true := by
      rw [List.isPrefixOf_iff_prefix]
      exact List.nil_prefix
    rw [h1, h2]
  | cons a p' ih =>
    intro x b hb
    cases x with
    | nil =>
      cases b with
      | nil => simp at hb
      | cons c b' =>
        simp only [List.head?_cons, Option.some_inj] at hb
        subst hb
        rw [List.nil_append]
        have ha : ¬ (a = '\n') := hp a (List.mem_cons_self a p')
        rw [isPrefixOf_head_ne (a :: p') a rfl '\n' ha b']
        rfl
    | cons y x' =>
      rw [List.cons_append]
      show (a == y && p'.isPrefixOf (x' ++ b)) = (a == y && p'.isPrefixOf x')
      rw [ih (fun c hc => hp c (List.mem_cons_of_mem a hc)) x' b hb]

theorem countOccur_append_nl (p : List Char) (hp : ∀ c ∈ p, ¬ (c = '\n'))
    (b : List Char) (hb : b.head? = some '\n') :
    ∀ x, countOccur p (x ++ b) = countOccur p x + countOccur p b := by
  intro x
  induction x with
  | nil => simp [countOccur]
  | cons c x' ih =>
    rw [List.cons_append, countOccur_cons, ← List.cons_append,
      noNl_isPrefixOf_append p hp (c :: x') b hb, countOccur_cons, ih,
      Nat.add_assoc]

theorem countOccur_le_append (p x b : List Char) :
    countOccur p x ≤ countOccur p (x ++ b) := by
  induction x with
  | nil => simp [countOccur]
  | cons c x' ih =>
    rw [countOccur_cons, List.cons_append, countOccur_cons]
    have hif : (if p.isPrefixOf (c :: x') then 1 else 0) ≤
        (if p.isPrefixOf (c :: (x' ++ b)) then 1 else 0) := by
      by_cases h : p.isPrefixOf (c :: x')
      · rw [if_pos h,
          if_pos (by rw [← List.cons_append]; exact isPrefixOf_extend p (c :: x') b h)]
      · rw [if_neg h]
        exact Nat.zero_le _
    omega

theorem countOccur_zero_of_append (p x b : List Char)
    (h : countOccur p (x ++ b) = 0) : countOccur p x = 0 :=
  Nat.le_zero.mp (h ▸ countOccur_le_append p x b)

theorem indexOfFrom_none_of_zero (p : List Char) (hp : p ≠ []) :
    ∀ x, countOccur p x = 0 → indexOfFrom p x = none := by
  intro x
  induction x with
  | nil =>
    intro _
    rw [indexOfFrom]
    rw [if_neg (by simpa using hp)]
  | cons c x' ih =>
    intro h
    rw [countOccur_cons] at h
    have h1 : ¬ (p.isPrefixOf (c :: x') = true) := by
      intro hq
      rw [if_pos hq] at h
      omega
    have h2 : countOccur p x' = 0 := by
      rw [if_neg h1] at h
      simpa using h
    rw [indexOfFrom_cons, if_neg h1, ih h2]
    rfl

theorem indexOfFrom_of_isPrefixOf (p s : List Char) (hp : p ≠ [])
    (h : p.isPrefixOf s) : indexOfFrom p s = some 0 := by
  cases s with
  | nil =>
    cases p with
    | nil => exact absurd rfl hp
    | cons a p' => simp [List.isPrefixOf] at h
  | cons c t => rw [indexOfFrom_cons, if_pos h]

theorem indexOfFrom_append_nl (p : List Char) (hp : ∀ c ∈ p, ¬ (c = '\n'))
    (b : List Char) (hb : b.head? = some '\n') :
    ∀ x, countOccur p x = 0 →
      indexOfFrom p (x ++ b) = (indexOfFrom p b).map (· + x.length) := by
  intro x
  induction x with
  | nil =>
    intro _
    rw [List.nil_append]
    cases indexOfFrom p b <;> simp
  | cons c x' ih =>
    intro h
    rw [countOccur_cons] at h
    have h1 : ¬ (p.isPrefixOf (c :: x') = true) := by
      intro hq
      rw [if_pos hq] at h
      omega
    have h2 : countOccur p x' = 0 := by
      rw [if_neg h1] at h
      simpa using h
    rw [List.cons_append, indexOfFrom_cons]
    have h3 : p.isPrefixOf (c :: (x' ++ b)) = false := by
      rw [← List.cons_append, noNl_isPrefixOf_append p hp (c :: x') b hb]
      exact bool_eq_false_of_not h1
    rw [h3]
    simp only [Bool.false_eq_true, if_false]
    rw [ih h2]
    cases indexOfFrom p b <;> simp [List.length_cons, Nat.add_assoc]

theorem countOccur_nl_cons (p : List Char) (a : Char) (hp : p.head? = some a)
    (hne : ¬ (a = '\n')) (t : List Char) :
    countOccur p ('\n' :: t) = countOccur p t := by
  rw [countOccur_cons, isPrefixOf_head_ne p a hp '\n' hne t]
  simp

theorem indexOfFrom_nl_cons (p : List Char) (a : Char) (hp : p.head? = some a)
    (hne : ¬ (a = '\n')) (t : List Char) :
    indexOfFrom p ('\n' :: t) = (indexOfFrom p t).map (· + 1) := by
  rw [indexOfFrom_cons, isPrefixOf_head_ne p a hp '\n' hne t]
  rfl

theorem countOccur_replicate_nl (p : List Char) (a : Char)
    (hp : p.head? = some a) (hne : ¬ (a = '\n')) (m : Nat) (t : List Char) :
    countOccur p (List.replicate m '\n' ++ t) = countOccur p t := by
  induction m with
  | zero => rfl
  | succ n ih =>
    rw [List.replicate_succ, List.cons_append,
      countOccur_nl_cons p a hp hne, ih]

theorem indexOfFrom_replicate_nl (p : List Char) (a : Char)
    (hp : p.head? = some a) (hne : ¬ (a = '\n')) (m : Nat) (t : List Char) :
    indexOfFrom p (List.replicate m '\n' ++ t) =
      (indexOfFrom p t).map (· + m) := by
  induction m with
  | zero =>
    rw [List.replicate, List.nil_append]
    cases indexOfFrom p t <;> simp
  | succ n ih =>
    rw [List.replicate_succ, List.cons_append,
      indexOfFrom_nl_cons p a hp hne, ih]
    cases indexOfFrom p t <;> simp [Nat.add_assoc]

/-! ### Facts about the newline-trimming helpers -/

theorem dropTrailingNewlines_cons (c : Char) (rest : List Char) :
    dropTrailingNewlines (c :: rest) =
      (match dropTrailingNewlines rest with
       | [] => if c = '\n' then [] else [c]
       | r => c :: r) := rfl

theorem dropTrailingNewlines_decomp (s : List Char) :
    ∃ m, s = dropTrailingNewlines s ++ List.replicate m '\n' := by
  induction s with
  | nil => exact ⟨0, rfl⟩
  | cons c rest ih =>
    obtain ⟨m, hm⟩ := ih
    rw [dropTrailingNewlines_cons]
    rcases hr : dropTrailingNewlines rest with _ | ⟨d, r'⟩
    · rw [hr] at hm
      rw [List.nil_append] at hm
      by_cases hc : c = '\n'
      · subst hc
        refine ⟨m + 1, ?_⟩
        rw [if_pos rfl, List.nil_append, hm, List.replicate_succ]
      · refine ⟨m, ?_⟩
        rw [if_neg hc]
        rw [hm]
        rfl
    · rw [hr] at hm
      exact ⟨m, by rw [hm]; rfl⟩

theorem dropTrailingNewlines_replicate (m : Nat) :
    dropTrailingNewlines (List.replicate m '\n') = [] := by
  induction m with
  | zero => rfl
  | succ n ih =>
    rw [List.replicate_succ, dropTrailingNewlines_cons, ih]
    simp

theorem dropTrailingNewlines_append_replicate (x : List Char) (m : Nat) :
    dropTrailingNewlines (x ++ List.replicate m '\n') =
      dropTrailingNewlines x := by
  induction x with
  | nil => exact dropTrailingNewlines_replicate m
  | cons c x' ih =>
    rw [List.cons_append, dropTrailingNewlines_cons, ih,
      dropTrailingNewlines_cons]

theorem endsWithNewline_cons_cons (a b : Char) (t : List Char) :
    endsWithNewline (a :: b :: t) = endsWithNewline (b :: t) := rfl

theorem endsWithNewline_dropTrailing (s : List Char) :
    endsWithNewline (dropTrailingNewlines s) = false := by
  induction s with
  | nil => rfl
  | cons c rest ih =>
    rw [dropTrailingNewlines_cons]
    rcases hr : dropTrailingNewlines rest with _ | ⟨d, r'⟩
    · by_cases hc : c = '\n'
      · rw [if_pos hc]
        rfl
      · rw [if_neg hc]
        show (c == '\n') = false
        exact beq_eq_false_iff_ne.mpr hc
    · rw [hr] at ih
      rw [endsWithNewline_cons_cons]
      exact ih

theorem endsWithNewline_append_nl (x : List Char) :
    endsWithNewline (x ++ ['\n']) = true := by
  induction x with
  | nil => rfl
  | cons c x' ih =>
    rw [List.cons_append]
    rcases hx : x' ++ ['\n'] with _ | ⟨b, t⟩
    · exact absurd hx (by simp)
    · rw [hx] at ih
      rw [endsWithNewline_cons_cons]
      exact ih

/-! ### Concrete facts about the markers and the wrapper blocks -/

theorem nl_toList : "\n".toList = ['\n'] := rfl

theorem nl2_toList : "\n\n".toList = ['\n', '\n'] := rfl

theorem markerStart_ne_nil : getMarkerStart ≠ [] := by decide

theorem markerEnd_ne_nil : getMarkerEnd ≠ [] := by decide

theorem markerStart_noNl : ∀ c ∈ getMarkerStart, ¬ (c = '\n') := by decide

theorem markerEnd_noNl : ∀ c ∈ getMarkerEnd, ¬ (c = '\n') := by decide

theorem markerStart_head : getMarkerStart.head? = some '#' := by decide

theorem markerEnd_head : getMarkerEnd.head? = some '#' := by decide

theorem hash_ne_nl : ¬ ('#' = '\n') := by decide

set_option maxRecDepth 100000 in
theorem countOccur_start_block (sh : ShellType) :
    countOccur getMarkerStart (getFullWrapperBlock sh ++ ['\n']) = 1 := by
  cases sh <;> decide

set_option maxRecDepth 100000 in
theorem countOccur_end_block (sh : ShellType) :
    countOccur getMarkerEnd (getFullWrapperBlock sh ++ ['\n']) = 1 := by
  cases sh <;> decide

set_option maxRecDepth 100000 in
theorem countOccur_end_front (sh : ShellType) :
    countOccur getMarkerEnd
      (getMarkerStart ++ "\n".toList ++ getShellWrapper sh) = 0 := by
  cases sh <;> decide

theorem block_decomp (sh : ShellType) :
    getFullWrapperBlock sh ++ ['\n'] =
      (getMarkerStart ++ "\n".toList ++ getShellWrapper sh) ++
        ('\n' :: (getMarkerEnd ++ ['\n'])) := by
  rw [getFullWrapperBlock]
  simp [List.append_assoc, nl_toList]

theorem indexOfFrom_start_block (sh : ShellType) :
    indexOfFrom getMarkerStart (getFullWrapperBlock sh ++ ['\n']) = some 0 := by
  apply indexOfFrom_of_isPrefixOf _ _ markerStart_ne_nil
  rw [getFullWrapperBlock]
  have hsh : getMarkerStart ++ "\n".toList ++ getShellWrapper sh ++
      "\n".toList ++ getMarkerEnd ++ ['\n'] =
      getMarkerStart ++ ("\n".toList ++ getShellWrapper sh ++
        "\n".toList ++ getMarkerEnd ++ ['\n']) := by
    simp [List.append_assoc]
  rw [hsh]
  exact isPrefixOf_append_self _ _

theorem indexOfFrom_end_block (sh : ShellType) :
    indexOfFrom getMarkerEnd (getFullWrapperBlock sh ++ ['\n']) =
      some ((getMarkerStart ++ "\n".toList ++ getShellWrapper sh).length + 1) := by
  rw [block_decomp]
  rw [indexOfFrom_append_nl getMarkerEnd markerEnd_noNl
    ('\n' :: (getMarkerEnd ++ ['\n'])) rfl _ (countOccur_end_front sh)]
  rw [indexOfFrom_nl_cons getMarkerEnd '#' markerEnd_head hash_ne_nl]
  rw [indexOfFrom_of_isPrefixOf getMarkerEnd _ markerEnd_ne_nil
    (isPrefixOf_append_self _ _)]
  simp [Nat.add_comm]

/-! ### `removeWrapper` and `addWrapper` on block-free content -/

theorem removeWrapper_of_free (content : List Char)
    (hs : countOccur getMarkerStart content = 0) :
    removeWrapper content = content := by
  unfold removeWrapper
  rw [indexOfFrom_none_of_zero getMarkerStart markerStart_ne_nil content hs]

theorem addWrapper_of_free (sh : ShellType) (content : List Char)
    (hs : countOccur getMarkerStart content = 0) :
    addWrapper sh content =
      content ++ (if endsWithNewline content then ['\n'] else ['\n', '\n']) ++
        getFullWrapperBlock sh ++ ['\n'] := by
  unfold addWrapper
  rw [removeWrapper_of_free content hs]
  simp [nl_toList, nl2_toList]

theorem removeWrapper_eq_of_index (content : List Char) (si ei : Nat)
    (h1 : indexOfFrom getMarkerStart content = some si)
    (h2 : indexOfFrom getMarkerEnd content = some ei) :
    removeWrapper content =
      dropTrailingNewlines (content.take si) ++
        (if (dropTrailingNewlines (content.take si)).isEmpty ||
            (dropLeadingNewlines
              (content.drop (ei + getMarkerEnd.length))).isEmpty
         then [] else "\n\n".toList) ++
        dropLeadingNewlines (content.drop (ei + getMarkerEnd.length)) := by
  unfold removeWrapper
  rw [h1, h2]

set_option maxRecDepth 100000 in
theorem removeWrapper_installed (sh : ShellType) (c : List Char) (m : Nat)
    (hs : countOccur getMarkerStart c = 0)
    (he : countOccur getMarkerEnd c = 0) :
    removeWrapper
        (c ++ List.replicate (m + 1) '\n' ++ getFullWrapperBlock sh ++ ['\n']) =
      dropTrailingNewlines c := by
  have hgroup : c ++ List.replicate (m + 1) '\n' ++ getFullWrapperBlock sh ++
      ['\n'] = c ++ (List.replicate (m + 1) '\n' ++
        (getFullWrapperBlock sh ++ ['\n'])) := by
    simp [List.append_assoc]
  have hbhead : (List.replicate (m + 1) '\n' ++
      (getFullWrapperBlock sh ++ ['\n'])).head? = some '\n' := by
    rw [List.replicate_succ]
    rfl
  have hsi : indexOfFrom getMarkerStart (c ++ (List.replicate (m + 1) '\n' ++
      (getFullWrapperBlock sh ++ ['\n']))) = some (0 + (m + 1) + c.length) := by
    rw [indexOfFrom_append_nl getMarkerStart markerStart_noNl _ hbhead c hs]
    rw [indexOfFrom_replicate_nl getMarkerStart '#' markerStart_head hash_ne_nl
      (m + 1) (getFullWrapperBlock sh ++ ['\n'])]
    rw [indexOfFrom_start_block sh]
    rfl
  have hei : indexOfFrom getMarkerEnd (c ++ (List.replicate (m + 1) '\n' ++
      (getFullWrapperBlock sh ++ ['\n']))) =
      some ((getMarkerStart ++ "\n".toList ++ getShellWrapper sh).length + 1 +
        (m + 1) + c.length) := by
    rw [indexOfFrom_append_nl getMarkerEnd markerEnd_noNl _ hbhead c he]
    rw [indexOfFrom_replicate_nl getMarkerEnd '#' markerEnd_head hash_ne_nl
      (m + 1) (getFullWrapperBlock sh ++ ['\n'])]
    rw [indexOfFrom_end_block sh]
    rfl
  rw [hgroup]
  have htake : (c ++ (List.replicate (m + 1) '\n' ++
      (getFullWrapperBlock sh ++ ['\n']))).take (0 + (m + 1) + c.length) =
      c ++ List.replicate (m + 1) '\n' := by
    have h1 : c ++ (List.replicate (m + 1) '\n' ++
        (getFullWrapperBlock sh ++ ['\n'])) =
        (c ++ List.replicate (m + 1) '\n') ++ (getFullWrapperBlock sh ++ ['\n']) := by
      simp [List.append_assoc]
    rw [h1]
    have h2 : 0 + (m + 1) + c.length =
        (c ++ List.replicate (m + 1) '\n').length := by
      simp [List.length_append, List.length_replicate]
      omega
    rw [h2, List.take_left]
  have hdrop : (c ++ (List.replicate (m + 1) '\n' ++
      (getFullWrapperBlock sh ++ ['\n']))).drop
        ((getMarkerStart ++ "\n".toList ++ getShellWrapper sh).length + 1 +
          (m + 1) + c.length + getMarkerEnd.length) = ['\n'] := by
    have h1 : c ++ (List.replicate (m + 1) '\n' ++
        (getFullWrapperBlock sh ++ ['\n'])) =
        (c ++ List.replicate (m + 1) '\n' ++ getFullWrapperBlock sh) ++ ['\n'] := by
      simp [List.append_assoc]
    rw [h1]
    have h2 : (getMarkerStart ++ "\n".toList ++ getShellWrapper sh).length + 1 +
        (m + 1) + c.length + getMarkerEnd.length =
        (c ++ List.replicate (m + 1) '\n' ++ getFullWrapperBlock sh).length := by
      rw [getFullWrapperBlock]
      simp [List.length_append, List.length_replicate, nl_toList]
      omega
    rw [h2, List.drop_left]
  rw [removeWrapper_eq_of_index _ _ _ hsi hei, htake, hdrop]
  rw [dropTrailingNewlines_append_replicate]
  have hafter : dropLeadingNewlines ['\n'] = [] := rfl
  rw [hafter]
  simp

theorem countOccur_installed (sh : ShellType) (p : List Char)
    (hpN : ∀ c ∈ p, ¬ (c = '\n')) (a : Char) (hhead : p.head? = some a)
    (hne : ¬ (a = '\n'))
    (hblock : countOccur p (getFullWrapperBlock sh ++ ['\n']) = 1)
    (c : List Char) (hc : countOccur p c = 0) (m : Nat) :
    countOccur p
      (c ++ List.replicate (m + 1) '\n' ++ getFullWrapperBlock sh ++ ['\n']) =
      1 := by
  have hgroup : c ++ List.replicate (m + 1) '\n' ++ getFullWrapperBlock sh ++
      ['\n'] = c ++ (List.replicate (m + 1) '\n' ++
        (getFullWrapperBlock sh ++ ['\n'])) := by
    simp [List.append_assoc]
  have hbhead : (List.replicate (m + 1) '\n' ++
      (getFullWrapperBlock sh ++ ['\n'])).head? = some '\n' := by
    rw [List.replicate_succ]
    rfl
  rw [hgroup, countOccur_append_nl p hpN _ hbhead c, hc,
    countOccur_replicate_nl p a hhead hne, hblock]

theorem addWrapper_replicate_form (sh : ShellType) (content : List Char)
    (hs : countOccur getMarkerStart content = 0) :
    addWrapper sh content =
      content ++
        List.replicate ((if endsWithNewline content then 0 else 1) + 1) '\n' ++
        getFullWrapperBlock sh ++ ['\n'] := by
  rw [addWrapper_of_free sh content hs]
  by_cases hE : endsWithNewline content
  · rw [if_pos hE, if_pos hE]
    rfl
  · rw [if_neg hE, if_neg hE]
    rfl

theorem addWrapper_free_counts (sh : ShellType) (content : List Char)
    (hs : countOccur getMarkerStart content = 0)
    (he : countOccur getMarkerEnd content = 0) :
    countOccur getMarkerStart (addWrapper sh content) = 1 ∧
    countOccur getMarkerEnd (addWrapper sh content) = 1 := by
  rw [addWrapper_replicate_form sh content hs]
  constructor
  · exact countOccur_installed sh getMarkerStart markerStart_noNl '#'
      markerStart_head hash_ne_nl (countOccur_start_block sh) content hs _
  · exact countOccur_installed sh getMarkerEnd markerEnd_noNl '#'
      markerEnd_head hash_ne_nl (countOccur_end_block sh) content he _

theorem addWrapper_twice_of_free (sh : ShellType) (content : List Char)
    (hs : countOccur getMarkerStart content = 0)
    (he : countOccur getMarkerEnd content = 0) :
    addWrapper sh (addWrapper sh content) =
      dropTrailingNewlines content ++ ['\n', '\n'] ++
        getFullWrapperBlock sh ++ ['\n'] := by
  conv_lhs => rw [addWrapper_replicate_form sh content hs]
  unfold addWrapper
  rw [removeWrapper_installed sh content _ hs he]
  simp only [endsWithNewline_dropTrailing, Bool.false_eq_true, if_false,
    nl2_toList, nl_toList]

theorem dropTrailing_start_free (content : List Char)
    (hs : countOccur getMarkerStart content = 0) :
    countOccur getMarkerStart (dropTrailingNewlines content) = 0 := by
  obtain ⟨m, hm⟩ := dropTrailingNewlines_decomp content
  rw [hm] at hs
  exact countOccur_zero_of_append _ _ _ hs

theorem dropTrailing_end_free (content : List Char)
    (he : countOccur getMarkerEnd content = 0) :
    countOccur getMarkerEnd (dropTrailingNewlines content) = 0 := by
  obtain ⟨m, hm⟩ := dropTrailingNewlines_decomp content
  rw [hm] at he
  exact countOccur_zero_of_append _ _ _ he

theorem addWrapper_twice_counts (sh : ShellType) (content : List Char)
    (hs : countOccur getMarkerStart content = 0)
    (he : countOccur getMarkerEnd content = 0) :
    countOccur getMarkerStart (addWrapper sh (addWrapper sh content)) = 1 ∧
    countOccur getMarkerEnd (addWrapper sh (addWrapper sh content)) = 1 := by
  rw [addWrapper_twice_of_free sh content hs he]
  have hshape : dropTrailingNewlines content ++ ['\n', '\n'] ++
      getFullWrapperBlock sh ++ ['\n'] =
      dropTrailingNewlines content ++ List.replicate (1 + 1) '\n' ++
        getFullWrapperBlock sh ++ ['\n'] := rfl
  rw [hshape]
  constructor
  · exact countOccur_installed sh getMarkerStart markerStart_noNl '#'
      markerStart_head hash_ne_nl (countOccur_start_block sh) _
      (dropTrailing_start_free content hs) _
  · exact countOccur_installed sh getMarkerEnd markerEnd_noNl '#'
      markerEnd_head hash_ne_nl (countOccur_end_block sh) _
      (dropTrailing_end_free content he) _

theorem addWrapper_idem_of_free (sh : ShellType) (content : List Char)
    (hs : countOccur getMarkerStart content = 0)
    (he : countOccur getMarkerEnd content = 0)
    (h1 : content = dropTrailingNewlines content ∨
      content = dropTrailingNewlines content ++ ['\n']) :
    addWrapper sh (addWrapper sh content) = addWrapper sh content := by
  rw [addWrapper_twice_of_free sh content hs he,
    addWrapper_of_free sh content hs]
  rcases h1 with h | h
  · have hE : endsWithNewline content = false := by
      conv_lhs => rw [h]
      exact endsWithNewline_dropTrailing content
    rw [hE]
    have hif : (if (false = true) then ['\n'] else ['\n', '\n']) =
        ['\n', '\n'] := rfl
    rw [hif]
    conv_lhs => rw [← h]
  · have hE : endsWithNewline content = true := by
      rw [h]
      exact endsWithNewline_append_nl _
    rw [hE]
    have hif : (if (true = true) then ['\n'] else ['\n', '\n']) = ['\n'] := rfl
    rw [hif]
    conv_rhs => rw [h]
    simp [List.append_assoc]

theorem endsWithNewline_append_replicate_succ (x : List Char) (m : Nat) :
    endsWithNewline (x ++ List.replicate (m + 1) '\n') = true := by
  rw [List.replicate_succ' m '\n', ← List.append_assoc]
  exact endsWithNewline_append_nl _

theorem addWrapper_not_idem_of_free (sh : ShellType) (content : List Char)
    (hs : countOccur getMarkerStart content = 0)
    (he : countOccur getMarkerEnd content = 0)
    (h1 : ¬ (content = dropTrailingNewlines content ∨
      content = dropTrailingNewlines content ++ ['\n'])) :
    addWrapper sh (addWrapper sh content) ≠ addWrapper sh content := by
  obtain ⟨m, hm⟩ := dropTrailingNewlines_decomp content
  rcases m with _ | m'
  · exfalso
    apply h1
    left
    conv_lhs => rw [hm]
    simp
  · rcases m' with _ | m''
    · exfalso
      apply h1
      right
      conv_lhs => rw [hm]
      rfl
    · have hE : endsWithNewline content = true := by
        conv_lhs => rw [hm]
        exact endsWithNewline_append_replicate_succ _ _
      have honce : addWrapper sh content =
          content ++ ['\n'] ++ getFullWrapperBlock sh ++ ['\n'] := by
        rw [addWrapper_of_free sh content hs, hE]
        rfl
      have htwice := addWrapper_twice_of_free sh content hs he
      intro hcontra
      rw [htwice, honce] at hcontra
      have hlen := congrArg List.length hcontra
      have hclen := congrArg List.length hm
      simp only [List.length_append, List.length_replicate,
        List.length_cons, List.length_nil] at hlen hclen
      omega

/-- C8 (amended): Wrapper install on content free of both marker strings:
one application yields content holding exactly one start marker and one end
marker; a second application collapses the original content's trailing
newlines before the (single) re-installed block, so it again holds exactly
one marked block, and it equals a single application exactly when the
original content ends in at most one newline (if- and only-if directions
both proved). -/
theorem claim_C8_wrapper_install (sh : ShellType) (content : List Char)
    (hs : countOccur getMarkerStart content = 0)
    (he : countOccur getMarkerEnd content = 0) :
    countOccur getMarkerStart (addWrapper sh content) = 1 ∧
    countOccur getMarkerEnd (addWrapper sh content) = 1 ∧
    addWrapper sh (addWrapper sh content) =
      dropTrailingNewlines content ++ ['\n', '\n'] ++
        getFullWrapperBlock sh ++ ['\n'] ∧
    countOccur getMarkerStart (addWrapper sh (addWrapper sh content)) = 1 ∧
    countOccur getMarkerEnd (addWrapper sh (addWrapper sh content)) = 1 ∧
    ((content = dropTrailingNewlines content ∨
      content = dropTrailingNewlines content ++ ['\n']) →
      addWrapper sh (addWrapper sh content) = addWrapper sh content) ∧
    (¬ (content = dropTrailingNewlines content ∨
      content = dropTrailingNewlines content ++ ['\n']) →
      addWrapper sh (addWrapper sh content) ≠ addWrapper sh content) :=
  ⟨(addWrapper_free_counts sh content hs he).1,
   (addWrapper_free_counts sh content hs he).2,
   addWrapper_twice_of_free sh content hs he,
   (addWrapper_twice_counts sh content hs he).1,
   (addWrapper_twice_counts sh content hs he).2,
   addWrapper_idem_of_free sh content hs he,
   addWrapper_not_idem_of_free sh content hs he⟩

set_option maxRecDepth 400000

/-- C8 counterexample: as stated over every file content, the claim is
false: for content ending in two newlines a second install is not the
identity (it collapses the blank tail), and for content already holding a
stray start marker the result does not contain exactly one start marker. -/
theorem claim_C8_counterexample :
    addWrapper .bash (addWrapper .bash "x\n\n".toList) ≠
        addWrapper .bash "x\n\n".toList ∧
    countOccur getMarkerStart (addWrapper .bash getMarkerStart) = 2 := by
  constructor
  · decide
  · decide

theorem claim_C8_witness :
    countOccur getMarkerStart "x\n".toList = 0 ∧
    countOccur getMarkerEnd "x\n".toList = 0 ∧
    ("x\n".toList = dropTrailingNewlines "x\n".toList ∨
      "x\n".toList = dropTrailingNewlines "x\n".toList ++ ['\n']) ∧
    addWrapper .bash (addWrapper .bash "x\n".toList) =
      addWrapper .bash "x\n".toList ∧
    (¬ ("x\n\n".toList = dropTrailingNewlines "x\n\n".toList ∨
      "x\n\n".toList = dropTrailingNewlines "x\n\n".toList ++ ['\n'])) ∧
    addWrapper .fish (addWrapper .fish "x\n\n".toList) ≠
      addWrapper .fish "x\n\n".toList :=
  ⟨by decide, by decide, by decide,
   (claim_C8_wrapper_install .bash "x\n".toList (by decide)
     (by decide)).2.2.2.2.2.1 (by decide),
   by decide,
   (claim_C8_wrapper_install .fish "x\n\n".toList (by decide)
     (by decide)).2.2.2.2.2.2 (by decide)⟩

end Envize
